import Mathlib

/-!
Shallow embedding of the `xsv fill` and `xsv coalesce` commands
(`src/cmd/fill.rs`, `src/cmd/coalesce.rs`).

Byte strings are lists of naturals; records are lists of byte strings.
The two `HashMap`s of the source (`GroupValues`, `Grouper`) are modelled
as association lists; new keys are appended at the tail, so the model
fixes a first-insertion iteration order where the source's `HashMap`
iteration order is unspecified (no theorem below depends on the order in
which distinct groups are flushed).  The fatal out-of-range panics of
`record[i]` are modelled with `Option`: `none` means the run aborts.
-/

namespace XsvFill

/-- A raw byte field, modelling `ByteString = Vec<u8>`. -/
abbrev ByteString := List Nat

/-- A row of fields, modelling `VecRecord = Vec<ByteString>`. -/
abbrev VecRecord := List ByteString

/-- Per-group memory from column index to remembered value, modelling
`GroupValues = HashMap<usize, ByteString>`. -/
abbrev GroupValues := List (Nat × ByteString)

/-- The group table, modelling `Grouper = HashMap<VecRecord, GroupValues>`. -/
abbrev Grouper := List (VecRecord × GroupValues)

/-- `HashMap::get` on a `GroupValues`. -/
def gvGet : GroupValues → Nat → Option ByteString
  | [], _ => none
  | (c', v) :: rest, c => if c' = c then some v else gvGet rest c

/-- `HashMap::insert` on a `GroupValues`. -/
def gvInsert : GroupValues → Nat → ByteString → GroupValues
  | [], c, v => [(c, v)]
  | (c', v') :: rest, c, v =>
    if c' = c then (c', v) :: rest else (c', v') :: gvInsert rest c v

/-- `HashMap::entry(..).or_insert(..)` on a `GroupValues`. -/
def gvOrInsert : GroupValues → Nat → ByteString → GroupValues
  | [], c, v => [(c, v)]
  | (c', v') :: rest, c, v =>
    if c' = c then (c', v') :: rest else (c', v') :: gvOrInsert rest c v

/-- `HashMap::get` on the `Grouper`. -/
def grouperGet : Grouper → VecRecord → Option GroupValues
  | [], _ => none
  | (k', m) :: rest, k => if k' = k then some m else grouperGet rest k

/-- `GroupFiller::fill` (fill.rs 122-133): a non-empty field is returned
unchanged; an empty field is replaced by the group's remembered value for
that column when one exists. -/
def Grouper.fillField (g : Grouper) (k : VecRecord) (c : Nat) (field : ByteString) :
    ByteString :=
  if field ≠ [] then field
  else
    match grouperGet g k with
    | none => field
    | some m =>
      match gvGet m c with
      | some f => f
      | none => field

/-- `GroupFiller::memorize` (fill.rs 135-147): vacant group keys get a fresh
one-entry memory, occupied ones overwrite the column's value. -/
def Grouper.memorize : Grouper → VecRecord → Nat → ByteString → Grouper
  | [], k, c, v => [(k, [(c, v)])]
  | (k', m) :: rest, k, c, v =>
    if k' = k then (k', gvInsert m c v) :: rest
    else (k', m) :: Grouper.memorize rest k c v

/-- `GroupFiller::memorize_first` (fill.rs 149-160): as `memorize` but a
column's value is only written when absent. -/
def Grouper.memorizeFirst : Grouper → VecRecord → Nat → ByteString → Grouper
  | [], k, c, v => [(k, [(c, v)])]
  | (k', m) :: rest, k, c, v =>
    if k' = k then (k', gvOrInsert m c v) :: rest
    else (k', m) :: Grouper.memorizeFirst rest k c v

/-- The streaming loop of `MapSelected::next` (fill.rs 331-349).  The
source keeps the whole selection plus a cursor `selection_index`; the model
passes the not-yet-matched suffix of the selection, whose head is
`selection.get(selection_index)`.  `idx` is the running field index. -/
def mapSelectedGo (f : Nat × ByteString → Nat × ByteString) :
    List Nat → Nat → List (Nat × ByteString) → List (Nat × ByteString)
  | _, _, [] => []
  | [], idx, item :: rest => item :: mapSelectedGo f [] (idx + 1) rest
  | s :: sel, idx, item :: rest =>
    if s = idx then f item :: mapSelectedGo f sel (idx + 1) rest
    else item :: mapSelectedGo f (s :: sel) (idx + 1) rest

/-- `Fillable::fill` (fill.rs 167-181): enumerate the record's fields,
apply the group filler at selected positions via `map_selected`, and drop
the indices again. -/
def fillRecord (record : VecRecord) (select : List Nat) (g : Grouper) (k : VecRecord) :
    VecRecord :=
  (mapSelectedGo (fun p => (p.1, Grouper.fillField g k p.1 p.2)) select 0
      record.enum).map Prod.snd

/-- Project the group-by columns of a record (`record[i]` for each index of
the group-by selection, in order); `none` models the fatal out-of-range
panic. -/
def projectKey (record : VecRecord) : List Nat → Option VecRecord
  | [] => some []
  | i :: rest =>
    match record.get? i with
    | none => none
    | some f =>
      match projectKey record rest with
      | none => none
      | some k => some (f :: k)

/-- `Filler::groupbykey` (fill.rs 89-103) in the `groupkey = None` case:
without a group-by selection every record maps to the fixed empty key. -/
def groupbykey (record : VecRecord) (groupby : Option (List Nat)) : Option VecRecord :=
  match groupby with
  | some sel => projectKey record sel
  | none => some []

/-- `ForwardFill::memorize` (fill.rs 228-239): for every selected column,
read the field (out of range is fatal) and memorize it when non-empty. -/
def memorizeAll : List Nat → VecRecord → VecRecord → Grouper → Option Grouper
  | [], _, _, g => some g
  | i :: rest, record, k, g =>
    match record.get? i with
    | none => none
    | some f =>
      memorizeAll rest record k (if f ≠ [] then Grouper.memorize g k i f else g)

/-- `FirstFill::memorize` (fill.rs 296-308): as `memorizeAll` but writing
with `memorize_first`. -/
def memorizeAllFirst : List Nat → VecRecord → VecRecord → Grouper → Option Grouper
  | [], _, _, g => some g
  | i :: rest, record, k, g =>
    match record.get? i with
    | none => none
    | some f =>
      memorizeAllFirst rest record k (if f ≠ [] then Grouper.memorizeFirst g k i f else g)

/-- One iteration of the `ForwardFill::fill` loop body (fill.rs 204-210):
compute the group key, memorize the record, fill it. -/
def forwardStep (groupby : Option (List Nat)) (select : List Nat) (g : Grouper)
    (record : VecRecord) : Option (Grouper × VecRecord) :=
  match groupbykey record groupby with
  | none => none
  | some key =>
    match memorizeAll select record key g with
    | none => none
    | some g' => some (g', fillRecord record select g' key)

/-- The `ForwardFill::fill` loop (fill.rs 201-214) from a given grouper
state: each record is filled and emitted immediately; on a fatal error the
rows written so far are kept and the flag is `false`. -/
def forwardRunFrom (groupby : Option (List Nat)) (select : List Nat) :
    Grouper → List VecRecord → List VecRecord × Grouper × Bool
  | g, [] => ([], g, true)
  | g, r :: rs =>
    match forwardStep groupby select g r with
    | none => ([], g, false)
    | some (g', row) =>
      let rest := forwardRunFrom groupby select g' rs
      (row :: rest.1, rest.2)

/-- `ForwardFill::fill` on the whole stream, from the empty grouper. -/
def forwardRun (groupby : Option (List Nat)) (select : List Nat)
    (records : List VecRecord) : List VecRecord × Grouper × Bool :=
  forwardRunFrom groupby select [] records

/-- The pending buffer of `FirstFill`, modelling
`buffer : HashMap<VecRecord, Vec<VecRecord>>`. -/
abbrev Buffer := List (VecRecord × List VecRecord)

/-- `buffer.entry(key).or_insert_with(Vec::new).push(row)` (fill.rs 276). -/
def bufferPush : Buffer → VecRecord → VecRecord → Buffer
  | [], k, row => [(k, [row])]
  | (k', rows) :: rest, k, row =>
    if k' = k then (k', rows ++ [row]) :: rest
    else (k', rows) :: bufferPush rest k row

/-- `buffer.remove(&key)` (fill.rs 278), returning the removed rows (empty
when the key is absent) and the remaining buffer. -/
def bufferRemove : Buffer → VecRecord → List VecRecord × Buffer
  | [], _ => ([], [])
  | (k', rows) :: rest, k =>
    if k' = k then (rows, rest)
    else
      let r := bufferRemove rest k
      (r.1, (k', rows) :: r.2)

/-- The resolution test `self.select.iter().any(|&i| row[i] == b"")`
(fill.rs 275); `none` models the out-of-range panic, and the scan stops at
the first empty field just as `any` does. -/
def anyEmptyAt (select : List Nat) (row : VecRecord) : Option Bool :=
  match select with
  | [] => some false
  | i :: rest =>
    match row.get? i with
    | none => none
    | some f => if f = [] then some true else anyEmptyAt rest row

/-- One iteration of the `FirstFill::fill` loop body (fill.rs 268-284):
memorize first values, fill the record, then either buffer it (some
selected field still empty) or drain the group's buffer — re-filling each
buffered row with the current grouper — and emit it followed by the
current row. -/
def firstStep (groupby : Option (List Nat)) (select : List Nat) (g : Grouper)
    (buf : Buffer) (record : VecRecord) :
    Option (Grouper × Buffer × List VecRecord) :=
  match groupbykey record groupby with
  | none => none
  | some key =>
    match memorizeAllFirst select record key g with
    | none => none
    | some g' =>
      let row := fillRecord record select g' key
      match anyEmptyAt select row with
      | none => none
      | some true => some (g', bufferPush buf key row, [])
      | some false =>
        let r := bufferRemove buf key
        some (g', r.2, r.1.map (fun b => fillRecord b select g' key) ++ [row])

/-- The `FirstFill::fill` reading loop (fill.rs 268-285) from a given
state, before the end-of-stream flush: returns the rows emitted inside the
loop, the final grouper and buffer, and whether the loop completed. -/
def firstRunLoop (groupby : Option (List Nat)) (select : List Nat) :
    Grouper → Buffer → List VecRecord → List VecRecord × Grouper × Buffer × Bool
  | g, buf, [] => ([], g, buf, true)
  | g, buf, r :: rs =>
    match firstStep groupby select g buf r with
    | none => ([], g, buf, false)
    | some (g', buf', emitted) =>
      let rest := firstRunLoop groupby select g' buf' rs
      (emitted ++ rest.1, rest.2)

/-- The end-of-stream flush of `FirstFill::fill` (fill.rs 286-290): every
remaining buffered row is re-filled with the final grouper and emitted,
buffer entries in table order, rows in their buffered order. -/
def flushBuffer (select : List Nat) (g : Grouper) : Buffer → List VecRecord
  | [] => []
  | (k, rows) :: rest =>
    rows.map (fun b => fillRecord b select g k) ++ flushBuffer select g rest

/-- `FirstFill::fill` on the whole stream: the loop's output followed, on
normal completion only, by the end-of-stream flush. -/
def firstRun (groupby : Option (List Nat)) (select : List Nat)
    (records : List VecRecord) : List VecRecord × Bool :=
  let r := firstRunLoop groupby select [] [] records
  if r.2.2.2 then (r.1 ++ flushBuffer select r.2.1 r.2.2.1, true) else (r.1, false)

/-- The policy dispatch of `run` (fill.rs 78-83): `--first` selects
`FirstFill` (the only filler with a pending buffer), otherwise
`ForwardFill`. -/
def runFill (first : Bool) (groupby : Option (List Nat)) (select : List Nat)
    (records : List VecRecord) : List VecRecord × Bool :=
  if first then firstRun groupby select records
  else
    let r := forwardRun groupby select records
    (r.1, r.2.2)

/-- The appended field of `coalesce!` (coalesce.rs 41-45): the first
non-empty field among the selected columns in selection order, the empty
field when all are empty.  Iteration is lazy (`take(1)`), so an
out-of-range index is only fatal if reached. -/
def coalesceField (record : VecRecord) : List Nat → Option ByteString
  | [] => some []
  | i :: rest =>
    match record.get? i with
    | none => none
    | some f => if f ≠ [] then some f else coalesceField record rest

/-- One row of `coalesce` (coalesce.rs 68-73): the input record with the
coalesced field appended. -/
def coalesce (select : List Nat) (record : VecRecord) : Option VecRecord :=
  match coalesceField record select with
  | none => none
  | some f => some (record ++ [f])

/-! ### Spec-side helpers -/

/-- The field of `r` at column `c`, empty when out of range. -/
def fieldAt (r : VecRecord) (c : Nat) : ByteString := (r.get? c).getD []

/-- Combined lookup through both hash maps: the remembered value of column
`c` for group `k`. -/
def grouperLookup (g : Grouper) (k : VecRecord) (c : Nat) : Option ByteString :=
  match grouperGet g k with
  | none => none
  | some m => gvGet m c

/-! ### Lemmas on the hash-map model -/

theorem grouperLookup_eq (g : Grouper) (k : VecRecord) (c : Nat) :
    grouperLookup g k c = gvGet ((grouperGet g k).getD []) c := by
  unfold grouperLookup
  cases grouperGet g k <;> simp [gvGet]

theorem gvGet_gvInsert (m : GroupValues) (c : Nat) (v : ByteString) (c' : Nat) :
    gvGet (gvInsert m c v) c' = if c = c' then some v else gvGet m c' := by
  induction m with
  | nil => by_cases h : c = c' <;> simp [gvInsert, gvGet, h]
  | cons hd tl ih =>
    obtain ⟨c₀, v₀⟩ := hd
    by_cases h0 : c₀ = c
    · subst h0
      by_cases h1 : c₀ = c' <;> simp [gvInsert, gvGet, h1]
    · by_cases h1 : c₀ = c'
      · subst h1
        have h2 : ¬c = c₀ := fun h => h0 h.symm
        simp [gvInsert, gvGet, h0, h2]
      · simp [gvInsert, gvGet, h0, h1, ih]

theorem gvGet_gvOrInsert (m : GroupValues) (c : Nat) (v : ByteString) (c' : Nat) :
    gvGet (gvOrInsert m c v) c' =
      if c = c' then some ((gvGet m c).getD v) else gvGet m c' := by
  induction m with
  | nil => by_cases h : c = c' <;> simp [gvOrInsert, gvGet, h]
  | cons hd tl ih =>
    obtain ⟨c₀, v₀⟩ := hd
    by_cases h0 : c₀ = c
    · subst h0
      by_cases h1 : c₀ = c' <;> simp [gvOrInsert, gvGet, h1]
    · by_cases h1 : c₀ = c'
      · subst h1
        have h2 : ¬c = c₀ := fun h => h0 h.symm
        simp [gvOrInsert, gvGet, h0, h2]
      · simp [gvOrInsert, gvGet, h0, h1, ih]

theorem grouperGet_memorize (g : Grouper) (k : VecRecord) (c : Nat) (v : ByteString)
    (k' : VecRecord) :
    grouperGet (Grouper.memorize g k c v) k' =
      if k = k' then some (gvInsert ((grouperGet g k).getD []) c v)
      else grouperGet g k' := by
  induction g with
  | nil => by_cases h : k = k' <;> simp [Grouper.memorize, grouperGet, h, gvInsert]
  | cons hd tl ih =>
    obtain ⟨k₀, m₀⟩ := hd
    by_cases h0 : k₀ = k
    · subst h0
      by_cases h1 : k₀ = k' <;> simp [Grouper.memorize, grouperGet, h1]
    · by_cases h1 : k₀ = k'
      · subst h1
        have h2 : ¬k = k₀ := fun h => h0 h.symm
        simp [Grouper.memorize, grouperGet, h0, h2]
      · simp [Grouper.memorize, grouperGet, h0, h1, ih]

theorem grouperGet_memorizeFirst (g : Grouper) (k : VecRecord) (c : Nat) (v : ByteString)
    (k' : VecRecord) :
    grouperGet (Grouper.memorizeFirst g k c v) k' =
      if k = k' then some (gvOrInsert ((grouperGet g k).getD []) c v)
      else grouperGet g k' := by
  induction g with
  | nil => by_cases h : k = k' <;> simp [Grouper.memorizeFirst, grouperGet, h, gvOrInsert]
  | cons hd tl ih =>
    obtain ⟨k₀, m₀⟩ := hd
    by_cases h0 : k₀ = k
    · subst h0
      by_cases h1 : k₀ = k' <;> simp [Grouper.memorizeFirst, grouperGet, h1]
    · by_cases h1 : k₀ = k'
      · subst h1
        have h2 : ¬k = k₀ := fun h => h0 h.symm
        simp [Grouper.memorizeFirst, grouperGet, h0, h2]
      · simp [Grouper.memorizeFirst, grouperGet, h0, h1, ih]

theorem grouperLookup_memorize (g : Grouper) (k : VecRecord) (c : Nat) (v : ByteString)
    (k' : VecRecord) (c' : Nat) :
    grouperLookup (Grouper.memorize g k c v) k' c' =
      if k = k' ∧ c = c' then some v else grouperLookup g k' c' := by
  rw [grouperLookup_eq, grouperGet_memorize]
  by_cases h0 : k = k'
  · subst h0
    simp [gvGet_gvInsert, grouperLookup_eq]
  · simp [h0, grouperLookup_eq]

theorem grouperLookup_memorizeFirst (g : Grouper) (k : VecRecord) (c : Nat)
    (v : ByteString) (k' : VecRecord) (c' : Nat) :
    grouperLookup (Grouper.memorizeFirst g k c v) k' c' =
      if k = k' ∧ c = c' then some ((grouperLookup g k c).getD v)
      else grouperLookup g k' c' := by
  rw [grouperLookup_eq, grouperGet_memorizeFirst]
  by_cases h0 : k = k'
  · subst h0
    simp [gvGet_gvOrInsert, grouperLookup_eq]
  · simp [h0, grouperLookup_eq]

theorem fillField_eq (g : Grouper) (k : VecRecord) (c : Nat) (f : ByteString) :
    Grouper.fillField g k c f = if f = [] then (grouperLookup g k c).getD [] else f := by
  unfold Grouper.fillField grouperLookup
  by_cases h : f = []
  · cases hg : grouperGet g k with
    | none => simp [h, hg]
    | some m => cases hv : gvGet m c <;> simp [h, hg, hv]
  · simp [h]

/-! ### Lemmas on selection-aware field mapping -/

theorem mapSelectedGo_length (f : Nat × ByteString → Nat × ByteString) :
    ∀ (sel : List Nat) (idx : Nat) (l : List (Nat × ByteString)),
      (mapSelectedGo f sel idx l).length = l.length := by
  intro sel idx l
  induction l generalizing sel idx with
  | nil => cases sel <;> simp [mapSelectedGo]
  | cons item rest ih =>
    cases sel with
    | nil => simp [mapSelectedGo, ih]
    | cons s sel' =>
      by_cases h : s = idx <;> simp [mapSelectedGo, h, ih]

theorem mapSelectedGo_cons_hit (f : Nat × ByteString → Nat × ByteString)
    (s : Nat) (sel : List Nat) (idx : Nat) (item : Nat × ByteString)
    (rest : List (Nat × ByteString)) (h : s = idx) :
    mapSelectedGo f (s :: sel) idx (item :: rest) =
      f item :: mapSelectedGo f sel (idx + 1) rest := by
  simp [mapSelectedGo, h]

theorem mapSelectedGo_cons_skip (f : Nat × ByteString → Nat × ByteString)
    (s : Nat) (sel : List Nat) (idx : Nat) (item : Nat × ByteString)
    (rest : List (Nat × ByteString)) (h : ¬s = idx) :
    mapSelectedGo f (s :: sel) idx (item :: rest) =
      item :: mapSelectedGo f (s :: sel) (idx + 1) rest := by
  simp [mapSelectedGo, h]

theorem mapSelectedGo_get? (f : Nat × ByteString → Nat × ByteString)
    (sel : List Nat) (idx : Nat) (l : List (Nat × ByteString))
    (hs : List.Pairwise (· < ·) sel) (hge : ∀ s ∈ sel, idx ≤ s) (j : Nat) :
    (mapSelectedGo f sel idx l).get? j =
      (l.get? j).map (fun item => if idx + j ∈ sel then f item else item) := by
  induction l generalizing sel idx j with
  | nil => cases sel <;> simp [mapSelectedGo]
  | cons item rest ih =>
    cases sel with
    | nil =>
      cases j with
      | zero => simp [mapSelectedGo]
      | succ j' => simpa [mapSelectedGo] using ih [] (idx + 1) (by simp) (by simp) j'
    | cons s sel' =>
      have hlt : ∀ t ∈ sel', s < t := fun t ht => (List.pairwise_cons.1 hs).1 t ht
      by_cases h : s = idx
      · subst h
        cases j with
        | zero => simp [mapSelectedGo]
        | succ j' =>
          have hge' : ∀ t ∈ sel', s + 1 ≤ t := fun t ht => hlt t ht
          have ihj := ih sel' (s + 1) (List.pairwise_cons.1 hs).2 hge' j'
          have hmem : (s + (j' + 1) ∈ s :: sel') ↔ (s + 1 + j' ∈ sel') := by
            constructor
            · intro hm
              rcases List.mem_cons.1 hm with hm | hm
              · omega
              · have := hlt _ hm
                have h2 : s + (j' + 1) = s + 1 + j' := by omega
                rwa [h2] at hm
            · intro hm
              have h2 : s + 1 + j' = s + (j' + 1) := by omega
              rw [h2] at hm
              exact List.mem_cons_of_mem _ hm
          rw [mapSelectedGo_cons_hit f s sel' s item rest rfl]
          simp only [List.get?_cons_succ]
          rw [ihj]
          cases rest.get? j' with
          | none => simp
          | some it =>
            simp only [Option.map_some']
            by_cases hm : s + 1 + j' ∈ sel'
            · rw [if_pos hm, if_pos (hmem.2 hm)]
            · rw [if_neg hm, if_neg (fun hc => hm (hmem.1 hc))]
      · have hidx : idx < s := lt_of_le_of_ne (hge s (List.mem_cons_self s sel')) (fun hc => h hc.symm)
        cases j with
        | zero =>
          have hnm : idx + 0 ∉ s :: sel' := by
            intro hm
            rcases List.mem_cons.1 hm with hm | hm
            · omega
            · have := hlt _ hm
              omega
          have hnm2 : idx ∉ s :: sel' := by simpa using hnm
          rw [mapSelectedGo_cons_skip f s sel' idx item rest h]
          simp only [List.get?_cons_zero, Option.map_some', Nat.add_zero]
          rw [if_neg hnm2]
        | succ j' =>
          have hge' : ∀ t ∈ s :: sel', idx + 1 ≤ t := by
            intro t ht
            rcases List.mem_cons.1 ht with ht | ht
            · omega
            · have := hlt _ ht
              omega
          have ihj := ih (s :: sel') (idx + 1) hs hge' j'
          have h2 : idx + 1 + j' = idx + (j' + 1) := by omega
          rw [mapSelectedGo_cons_skip f s sel' idx item rest h]
          simp only [List.get?_cons_succ]
          rw [ihj, h2]

theorem fillRecord_get? (r : VecRecord) (select : List Nat) (g : Grouper)
    (k : VecRecord) (hs : List.Pairwise (· < ·) select) (c : Nat) :
    (fillRecord r select g k).get? c =
      (r.get? c).map (fun f => if c ∈ select then Grouper.fillField g k c f else f) := by
  unfold fillRecord
  rw [List.get?_map, mapSelectedGo_get? _ _ _ _ hs (by simp) c, List.get?_enum]
  cases r.get? c with
  | none => simp
  | some f =>
    simp only [Option.map_some, Nat.zero_add]
    by_cases hm : c ∈ select <;> simp [hm]

theorem fillRecord_length (r : VecRecord) (select : List Nat) (g : Grouper)
    (k : VecRecord) : (fillRecord r select g k).length = r.length := by
  unfold fillRecord
  rw [List.length_map, mapSelectedGo_length, List.enum_length]

/-! ### Lemmas on memorization -/

theorem get?_eq_fieldAt (r : VecRecord) (i : Nat) (h : i < r.length) :
    r.get? i = some (fieldAt r i) := by
  unfold fieldAt
  cases hg : r.get? i with
  | none =>
    rw [List.get?_eq_none] at hg
    omega
  | some f => rfl

theorem memorizeAll_eq (select : List Nat) (r k : VecRecord) (g : Grouper)
    (hs : List.Pairwise (· < ·) select)
    (hval : ∀ i ∈ select, i < r.length) :
    ∃ g', memorizeAll select r k g = some g' ∧
      ∀ k' c, grouperLookup g' k' c =
        if k = k' ∧ c ∈ select ∧ fieldAt r c ≠ [] then some (fieldAt r c)
        else grouperLookup g k' c := by
  induction select generalizing g with
  | nil => exact ⟨g, rfl, fun k' c => by simp⟩
  | cons i rest ih =>
    have hi : i < r.length := hval i (List.mem_cons_self i rest)
    have hnotin : i ∉ rest := fun hm =>
      absurd ((List.pairwise_cons.1 hs).1 i hm) (lt_irrefl i)
    set g1 := if fieldAt r i ≠ [] then Grouper.memorize g k i (fieldAt r i) else g with hg1
    obtain ⟨g', hg', hprop⟩ := ih g1 (List.pairwise_cons.1 hs).2
      (fun j hj => hval j (List.mem_cons_of_mem _ hj))
    have hstep : memorizeAll (i :: rest) r k g = memorizeAll rest r k g1 := by
      simp only [memorizeAll]
      rw [get?_eq_fieldAt r i hi]
    refine ⟨g', by rw [hstep]; exact hg', ?_⟩
    intro k' c
    rw [hprop k' c]
    have hlook1 : ∀ k₂ c₂, grouperLookup g1 k₂ c₂ =
        if k = k₂ ∧ i = c₂ ∧ fieldAt r i ≠ [] then some (fieldAt r i)
        else grouperLookup g k₂ c₂ := by
      intro k₂ c₂
      rw [hg1]
      by_cases hne : fieldAt r i = []
      · simp [hne]
      · rw [if_pos hne, grouperLookup_memorize]
        by_cases hk2 : k = k₂
        · by_cases hc2 : i = c₂
          · subst hk2
            subst hc2
            simp [hne]
          · simp [hk2, hc2]
        · simp [hk2]
    rw [hlook1 k' c]
    by_cases hcr : c ∈ rest
    · have hci : ¬i = c := fun h => hnotin (h ▸ hcr)
      simp only [List.mem_cons]
      split_ifs <;> tauto
    · by_cases hci : i = c
      · subst hci
        simp only [List.mem_cons, true_or]
        split_ifs <;> tauto
      · have hci' : ¬c = i := fun h => hci h.symm
        simp only [List.mem_cons]
        split_ifs <;> tauto

theorem memorizeAllFirst_eq (select : List Nat) (r k : VecRecord) (g : Grouper)
    (hs : List.Pairwise (· < ·) select)
    (hval : ∀ i ∈ select, i < r.length) :
    ∃ g', memorizeAllFirst select r k g = some g' ∧
      ∀ k' c, grouperLookup g' k' c =
        if k = k' ∧ c ∈ select ∧ fieldAt r c ≠ []
        then some ((grouperLookup g k c).getD (fieldAt r c))
        else grouperLookup g k' c := by
  induction select generalizing g with
  | nil => exact ⟨g, rfl, fun k' c => by simp⟩
  | cons i rest ih =>
    have hi : i < r.length := hval i (List.mem_cons_self i rest)
    have hnotin : i ∉ rest := fun hm =>
      absurd ((List.pairwise_cons.1 hs).1 i hm) (lt_irrefl i)
    set g1 := if fieldAt r i ≠ [] then Grouper.memorizeFirst g k i (fieldAt r i) else g
      with hg1
    obtain ⟨g', hg', hprop⟩ := ih g1 (List.pairwise_cons.1 hs).2
      (fun j hj => hval j (List.mem_cons_of_mem _ hj))
    have hstep : memorizeAllFirst (i :: rest) r k g = memorizeAllFirst rest r k g1 := by
      simp only [memorizeAllFirst]
      rw [get?_eq_fieldAt r i hi]
    refine ⟨g', by rw [hstep]; exact hg', ?_⟩
    intro k' c
    rw [hprop k' c]
    have hlook1 : ∀ k₂ c₂, grouperLookup g1 k₂ c₂ =
        if k = k₂ ∧ i = c₂ ∧ fieldAt r i ≠ []
        then some ((grouperLookup g k i).getD (fieldAt r i))
        else grouperLookup g k₂ c₂ := by
      intro k₂ c₂
      rw [hg1]
      by_cases hne : fieldAt r i = []
      · simp [hne]
      · rw [if_pos hne, grouperLookup_memorizeFirst]
        by_cases hk2 : k = k₂
        · by_cases hc2 : i = c₂
          · subst hk2
            subst hc2
            simp [hne]
          · simp [hk2, hc2]
        · simp [hk2]
    rw [hlook1 k' c]
    by_cases hcr : c ∈ rest
    · have hci : ¬i = c := fun h => hnotin (h ▸ hcr)
      have hinner : grouperLookup g1 k c = grouperLookup g k c := by
        rw [hlook1 k c, if_neg (by tauto)]
      rw [hinner]
      simp only [List.mem_cons]
      split_ifs <;> tauto
    · by_cases hci : i = c
      · subst hci
        simp only [List.mem_cons, true_or]
        split_ifs <;> tauto
      · have hci' : ¬c = i := fun h => hci h.symm
        have hinner : grouperLookup g1 k c = grouperLookup g k c := by
          rw [hlook1 k c, if_neg (by tauto)]
        rw [hinner]
        simp only [List.mem_cons]
        split_ifs <;> tauto

theorem memorizeAll_none (select : List Nat) (r k : VecRecord) (g : Grouper)
    (h : ∃ i ∈ select, r.length ≤ i) :
    memorizeAll select r k g = none := by
  induction select generalizing g with
  | nil => simp at h
  | cons j rest ih =>
    by_cases hj : j < r.length
    · have hstep : memorizeAll (j :: rest) r k g =
          memorizeAll rest r k
            (if fieldAt r j ≠ [] then Grouper.memorize g k j (fieldAt r j) else g) := by
        simp only [memorizeAll]
        rw [get?_eq_fieldAt r j hj]
      rw [hstep]
      obtain ⟨i, hi, hlen⟩ := h
      rcases List.mem_cons.1 hi with rfl | hi'
      · omega
      · exact ih _ ⟨i, hi', hlen⟩
    · have hnone : r.get? j = none := List.get?_eq_none.2 (by omega)
      simp only [memorizeAll]
      rw [hnone]

theorem memorizeAllFirst_none (select : List Nat) (r k : VecRecord) (g : Grouper)
    (h : ∃ i ∈ select, r.length ≤ i) :
    memorizeAllFirst select r k g = none := by
  induction select generalizing g with
  | nil => simp at h
  | cons j rest ih =>
    by_cases hj : j < r.length
    · have hstep : memorizeAllFirst (j :: rest) r k g =
          memorizeAllFirst rest r k
            (if fieldAt r j ≠ [] then Grouper.memorizeFirst g k j (fieldAt r j) else g) := by
        simp only [memorizeAllFirst]
        rw [get?_eq_fieldAt r j hj]
      rw [hstep]
      obtain ⟨i, hi, hlen⟩ := h
      rcases List.mem_cons.1 hi with rfl | hi'
      · omega
      · exact ih _ ⟨i, hi', hlen⟩
    · have hnone : r.get? j = none := List.get?_eq_none.2 (by omega)
      simp only [memorizeAllFirst]
      rw [hnone]

theorem projectKey_some (r : VecRecord) (sel : List Nat)
    (hval : ∀ i ∈ sel, i < r.length) : (projectKey r sel).isSome = true := by
  induction sel with
  | nil => simp [projectKey]
  | cons i rest ih =>
    have hi := hval i (List.mem_cons_self i rest)
    have hrest := ih (fun j hj => hval j (List.mem_cons_of_mem _ hj))
    rw [Option.isSome_iff_exists] at hrest
    obtain ⟨ks, hks⟩ := hrest
    simp only [projectKey]
    rw [get?_eq_fieldAt r i hi, hks]
    rfl

theorem projectKey_none (r : VecRecord) (sel : List Nat)
    (h : ∃ i ∈ sel, r.length ≤ i) : projectKey r sel = none := by
  induction sel with
  | nil => simp at h
  | cons j rest ih =>
    by_cases hj : j < r.length
    · obtain ⟨i, hi, hlen⟩ := h
      rcases List.mem_cons.1 hi with rfl | hi'
      · omega
      · simp only [projectKey]
        rw [get?_eq_fieldAt r j hj, ih ⟨i, hi', hlen⟩]
    · have hnone : r.get? j = none := List.get?_eq_none.2 (by omega)
      simp only [projectKey]
      rw [hnone]

/-! ### Spec-side value functions -/

/-- The most recent non-empty value of column `c` among `rows`, later rows
winning; `none` when no row has a non-empty value there. -/
def lastNonEmptyCol : List VecRecord → Nat → Option ByteString
  | [], _ => none
  | r :: rest, c =>
    match lastNonEmptyCol rest c with
    | some v => some v
    | none => if fieldAt r c = [] then none else some (fieldAt r c)

/-- The first non-empty value of column `c` among `rows`. -/
def firstNonEmptyCol : List VecRecord → Nat → Option ByteString
  | [], _ => none
  | r :: rest, c =>
    if fieldAt r c = [] then firstNonEmptyCol rest c else some (fieldAt r c)

/-- The rows of `records` whose group key is `key`. -/
def groupRows (groupby : Option (List Nat)) (key : VecRecord)
    (records : List VecRecord) : List VecRecord :=
  records.filter (fun r => decide (groupbykey r groupby = some key))

/-- The value §8 of the spec prescribes for the forward policy at row `i`,
column `c`: the most recent non-empty input value for `c` at or before row
`i` within row `i`'s group, or empty if none has occurred yet. -/
def specForwardValue (groupby : Option (List Nat)) (records : List VecRecord)
    (i c : Nat) : Option ByteString :=
  match records.get? i with
  | none => none
  | some r =>
    some ((lastNonEmptyCol
      (groupRows groupby ((groupbykey r groupby).getD []) (records.take (i + 1)))
      c).getD [])

theorem lastNonEmptyCol_append (xs ys : List VecRecord) (c : Nat) :
    lastNonEmptyCol (xs ++ ys) c =
      match lastNonEmptyCol ys c with
      | some v => some v
      | none => lastNonEmptyCol xs c := by
  induction xs with
  | nil =>
    cases hy : lastNonEmptyCol ys c <;> simp [lastNonEmptyCol, hy]
  | cons r xs ih =>
    show (match lastNonEmptyCol (xs ++ ys) c with
      | some v => some v
      | none => if fieldAt r c = [] then none else some (fieldAt r c)) = _
    rw [ih]
    cases hy : lastNonEmptyCol ys c
    · rfl
    · rfl

theorem firstNonEmptyCol_append (xs ys : List VecRecord) (c : Nat) :
    firstNonEmptyCol (xs ++ ys) c =
      match firstNonEmptyCol xs c with
      | some v => some v
      | none => firstNonEmptyCol ys c := by
  induction xs with
  | nil => simp [firstNonEmptyCol]
  | cons r xs ih =>
    by_cases h : fieldAt r c = []
    · show (if fieldAt r c = [] then firstNonEmptyCol (xs ++ ys) c
          else some (fieldAt r c)) =
        match (if fieldAt r c = [] then firstNonEmptyCol xs c
          else some (fieldAt r c)) with
        | some v => some v
        | none => firstNonEmptyCol ys c
      rw [if_pos h, if_pos h, ih]
    · show (if fieldAt r c = [] then firstNonEmptyCol (xs ++ ys) c
          else some (fieldAt r c)) =
        match (if fieldAt r c = [] then firstNonEmptyCol xs c
          else some (fieldAt r c)) with
        | some v => some v
        | none => firstNonEmptyCol ys c
      rw [if_neg h, if_neg h]

theorem groupRows_append (groupby : Option (List Nat)) (key : VecRecord)
    (xs ys : List VecRecord) :
    groupRows groupby key (xs ++ ys) =
      groupRows groupby key xs ++ groupRows groupby key ys := by
  simp [groupRows, List.filter_append]

theorem groupRows_singleton_self (groupby : Option (List Nat)) (key : VecRecord)
    (r : VecRecord) (h : groupbykey r groupby = some key) :
    groupRows groupby key [r] = [r] := by
  simp [groupRows, h]

theorem groupRows_singleton_other (groupby : Option (List Nat)) (key K : VecRecord)
    (r : VecRecord) (h : groupbykey r groupby = some key) (hne : key ≠ K) :
    groupRows groupby K [r] = [] := by
  simp [groupRows, h, hne]

theorem grouperLookup_nil (K : VecRecord) (c : Nat) :
    grouperLookup [] K c = none := rfl

/-! ### The forward policy -/

theorem forwardRunFrom_spec (groupby : Option (List Nat)) (select : List Nat)
    (records : List VecRecord)
    (hsort : List.Pairwise (· < ·) select)
    (hval : ∀ r ∈ records, ∀ i ∈ select, i < r.length)
    (hgrp : ∀ r ∈ records, (groupbykey r groupby).isSome = true) :
    ∀ (rest done : List VecRecord) (g : Grouper), records = done ++ rest →
      (∀ K c, c ∈ select →
        grouperLookup g K c = lastNonEmptyCol (groupRows groupby K done) c) →
      (forwardRunFrom groupby select g rest).2.2 = true ∧
      ∀ i c, c ∈ select → ∀ hi : i < rest.length,
        ((forwardRunFrom groupby select g rest).1.get? i).bind (fun row => row.get? c) =
          some ((lastNonEmptyCol
            (groupRows groupby ((groupbykey (rest.get ⟨i, hi⟩) groupby).getD [])
              (done ++ rest.take (i + 1))) c).getD []) := by
  intro rest
  induction rest with
  | nil =>
    intro done g _ _
    refine ⟨rfl, ?_⟩
    intro i c _ hi
    simp at hi
  | cons r rest ih =>
    intro done g hsplit hmem
    have hrmem : r ∈ records := by
      rw [hsplit]
      exact List.mem_append.2 (Or.inr (List.mem_cons_self r rest))
    obtain ⟨key, hkeyeq⟩ := Option.isSome_iff_exists.1 (hgrp r hrmem)
    obtain ⟨g', hg', hgprop⟩ := memorizeAll_eq select r key g hsort (hval r hrmem)
    have hstep : forwardStep groupby select g r =
        some (g', fillRecord r select g' key) := by
      unfold forwardStep
      rw [hkeyeq]
      show (match memorizeAll select r key g with
        | none => none
        | some g2 => some (g2, fillRecord r select g2 key)) = _
      rw [hg']
    have hmem' : ∀ K c, c ∈ select →
        grouperLookup g' K c = lastNonEmptyCol (groupRows groupby K (done ++ [r])) c := by
      intro K c hc
      rw [hgprop K c, groupRows_append, lastNonEmptyCol_append]
      by_cases hK : key = K
      · subst hK
        rw [groupRows_singleton_self groupby key r hkeyeq]
        by_cases hne : fieldAt r c = []
        · simp [lastNonEmptyCol, hne, hmem key c hc]
        · simp [lastNonEmptyCol, hne, hc]
      · rw [groupRows_singleton_other groupby key K r hkeyeq hK]
        rw [if_neg (by tauto)]
        simp [lastNonEmptyCol, hmem K c hc]
    have hsplit' : records = (done ++ [r]) ++ rest := by
      rw [hsplit, List.append_assoc]
      rfl
    obtain ⟨ihok, ihval⟩ := ih (done ++ [r]) g' hsplit' hmem'
    have hrun : forwardRunFrom groupby select g (r :: rest) =
        (fillRecord r select g' key :: (forwardRunFrom groupby select g' rest).1,
         (forwardRunFrom groupby select g' rest).2) := by
      simp only [forwardRunFrom]
      rw [hstep]
    refine ⟨by rw [hrun]; exact ihok, ?_⟩
    intro i c hc hi
    cases i with
    | zero =>
      rw [hrun]
      simp only [List.get?_cons_zero, Option.some_bind]
      have hcval : c < r.length := hval r hrmem c hc
      rw [fillRecord_get? r select g' key hsort c, get?_eq_fieldAt r c hcval]
      simp only [Option.map_some', if_pos hc, fillField_eq]
      have hfill : (if fieldAt r c = [] then (grouperLookup g' key c).getD []
          else fieldAt r c) = (grouperLookup g' key c).getD [] := by
        by_cases hne : fieldAt r c = []
        · simp [hne]
        · rw [if_neg hne, hgprop key c, if_pos ⟨rfl, hc, hne⟩]
          rfl
      rw [hfill, hmem' key c hc]
      have htake : (r :: rest).take (0 + 1) = [r] := rfl
      have hget : (r :: rest).get ⟨0, hi⟩ = r := rfl
      rw [htake, hget, hkeyeq]
      rfl
    | succ i' =>
      have hi' : i' < rest.length := by
        simp at hi
        omega
      rw [hrun]
      simp only [List.get?_cons_succ]
      have := ihval i' c hc hi'
      rw [this]
      have hget : (r :: rest).get ⟨i' + 1, hi⟩ = rest.get ⟨i', hi'⟩ := rfl
      have htake : done ++ (r :: rest).take (i' + 1 + 1) =
          (done ++ [r]) ++ rest.take (i' + 1) := by
        rw [List.take_succ_cons, List.append_assoc]
        rfl
      rw [hget, htake]

theorem forwardRunFrom_length (groupby : Option (List Nat)) (select : List Nat) :
    ∀ (rs : List VecRecord) (g : Grouper),
      (forwardRunFrom groupby select g rs).2.2 = true →
      (forwardRunFrom groupby select g rs).1.length = rs.length := by
  intro rs
  induction rs with
  | nil => intro g _; rfl
  | cons r rest ih =>
    intro g hok
    cases hstep : forwardStep groupby select g r with
    | none =>
      simp only [forwardRunFrom, hstep] at hok
      exact Bool.noConfusion hok
    | some p =>
      obtain ⟨g', row⟩ := p
      simp only [forwardRunFrom, hstep] at hok ⊢
      simp only [List.length_cons]
      rw [ih g' hok]

theorem forwardRunFrom_append (groupby : Option (List Nat)) (select : List Nat)
    (xs ys : List VecRecord) :
    ∀ g : Grouper, (forwardRunFrom groupby select g xs).2.2 = true →
    forwardRunFrom groupby select g (xs ++ ys) =
      ((forwardRunFrom groupby select g xs).1 ++
        (forwardRunFrom groupby select (forwardRunFrom groupby select g xs).2.1 ys).1,
       (forwardRunFrom groupby select (forwardRunFrom groupby select g xs).2.1 ys).2) := by
  induction xs with
  | nil => intro g _; simp [forwardRunFrom]
  | cons r xs ih =>
    intro g hok
    cases hstep : forwardStep groupby select g r with
    | none =>
      simp only [forwardRunFrom, hstep] at hok
      exact Bool.noConfusion hok
    | some p =>
      obtain ⟨g', row⟩ := p
      simp only [List.cons_append, List.append_eq, forwardRunFrom, hstep] at hok ⊢
      rw [ih g' hok]

theorem forwardRunFrom_frame (groupby : Option (List Nat)) (select : List Nat)
    (hsort : List.Pairwise (· < ·) select) :
    ∀ (rs : List VecRecord) (g : Grouper),
      (∀ r ∈ rs, ∀ i ∈ select, i < r.length) →
      (∀ r ∈ rs, (groupbykey r groupby).isSome = true) →
      ∀ i, ∀ hi : i < rs.length,
        ∃ row, (forwardRunFrom groupby select g rs).1.get? i = some row ∧
          row.length = (rs.get ⟨i, hi⟩).length ∧
          (∀ c, c ∉ select → row.get? c = (rs.get ⟨i, hi⟩).get? c) ∧
          (∀ c ∈ select, fieldAt (rs.get ⟨i, hi⟩) c ≠ [] →
            row.get? c = (rs.get ⟨i, hi⟩).get? c) := by
  intro rs
  induction rs with
  | nil =>
    intro g _ _ i hi
    simp at hi
  | cons r rest ih =>
    intro g hval hgrp i hi
    have hrv : ∀ i ∈ select, i < r.length :=
      hval r (List.mem_cons_self r rest)
    obtain ⟨key, hkeyeq⟩ :=
      Option.isSome_iff_exists.1 (hgrp r (List.mem_cons_self r rest))
    obtain ⟨g', hg', -⟩ := memorizeAll_eq select r key g hsort hrv
    have hstep : forwardStep groupby select g r =
        some (g', fillRecord r select g' key) := by
      unfold forwardStep
      rw [hkeyeq]
      show (match memorizeAll select r key g with
        | none => none
        | some g2 => some (g2, fillRecord r select g2 key)) = _
      rw [hg']
    cases i with
    | zero =>
      refine ⟨fillRecord r select g' key, ?_, ?_, ?_, ?_⟩
      · simp only [forwardRunFrom, hstep]
        rfl
      · exact fillRecord_length r select g' key
      · intro c hc
        rw [fillRecord_get? r select g' key hsort c]
        show _ = r.get? c
        cases r.get? c <;> simp [hc]
      · intro c hc hne
        have hne2 : fieldAt r c ≠ [] := hne
        rw [fillRecord_get? r select g' key hsort c]
        show _ = r.get? c
        rw [get?_eq_fieldAt r c (hrv c hc)]
        simp only [Option.map_some', if_pos hc, fillField_eq, if_neg hne2]
    | succ i' =>
      have hi' : i' < rest.length := by
        simp at hi
        omega
      obtain ⟨row, h1, h2, h3, h4⟩ := ih g'
        (fun x hx => hval x (List.mem_cons_of_mem _ hx))
        (fun x hx => hgrp x (List.mem_cons_of_mem _ hx)) i' hi'
      refine ⟨row, ?_, h2, h3, h4⟩
      simp only [forwardRunFrom, hstep]
      exact h1

/-- C1: Forward policy: for every input stream, every group and every
target column, the emitted value at row `i` equals the most recent
non-empty input value for that column at or before row `i` within that
row's group, and remains empty if no non-empty value has occurred yet in
that group.  The target selection is sorted ascending with distinct
indices and all configured column indices are in range, as §4.1 assumes. -/
theorem c1_forward_fill_most_recent (groupby : Option (List Nat)) (select : List Nat)
    (records : List VecRecord)
    (hsort : List.Pairwise (· < ·) select)
    (hval : ∀ r ∈ records, ∀ i ∈ select, i < r.length)
    (hgrp : ∀ r ∈ records, (groupbykey r groupby).isSome = true)
    (i c : Nat) (hc : c ∈ select) (hi : i < records.length) :
    ((forwardRun groupby select records).1.get? i).bind (fun row => row.get? c) =
      specForwardValue groupby records i c := by
  obtain ⟨-, hv⟩ := forwardRunFrom_spec groupby select records hsort hval hgrp
    records [] [] rfl (fun K c _ => rfl)
  have hvi := hv i c hc hi
  unfold forwardRun
  rw [hvi]
  unfold specForwardValue
  rw [List.get?_eq_get hi]
  simp only [List.nil_append]

/-- Witness for C1 at a concrete input: one group, target column `0`,
rows `[a]` then `[empty]`; row `1` outputs the value of row `0`. -/
theorem c1_forward_fill_most_recent_witness :
    ((forwardRun none [0] [[[97]], [[]]]).1.get? 1).bind (fun row => row.get? 0) =
      specForwardValue none [[[97]], [[]]] 1 0 :=
  c1_forward_fill_most_recent none [0] [[[97]], [[]]] (by decide)
    (by decide) (by decide) 1 0 (by decide) (by decide)

/-! ### The first policy: memory monotonicity and fill collapse -/

/-- `g'` extends `g`: every remembered value stays remembered. -/
def memLE (g g' : Grouper) : Prop :=
  ∀ K c v, grouperLookup g K c = some v → grouperLookup g' K c = some v

/-- Every remembered value is non-empty. -/
def grouperNE (g : Grouper) : Prop :=
  ∀ K c v, grouperLookup g K c = some v → v ≠ []

theorem memLE_refl (g : Grouper) : memLE g g := fun _ _ _ h => h

theorem memLE_trans {g1 g2 g3 : Grouper} (h1 : memLE g1 g2) (h2 : memLE g2 g3) :
    memLE g1 g3 := fun K c v h => h2 K c v (h1 K c v h)

theorem memorizeAll_lookup (select : List Nat) (r k : VecRecord) (g g' : Grouper)
    (hsort : List.Pairwise (· < ·) select)
    (hval : ∀ i ∈ select, i < r.length)
    (hg' : memorizeAll select r k g = some g') :
    ∀ k' c, grouperLookup g' k' c =
      if k = k' ∧ c ∈ select ∧ fieldAt r c ≠ [] then some (fieldAt r c)
      else grouperLookup g k' c := by
  obtain ⟨g'', hg'', hp⟩ := memorizeAll_eq select r k g hsort hval
  rw [hg'] at hg''
  injection hg'' with h
  subst h
  exact hp

theorem memorizeAllFirst_lookup (select : List Nat) (r k : VecRecord) (g g' : Grouper)
    (hsort : List.Pairwise (· < ·) select)
    (hval : ∀ i ∈ select, i < r.length)
    (hg' : memorizeAllFirst select r k g = some g') :
    ∀ k' c, grouperLookup g' k' c =
      if k = k' ∧ c ∈ select ∧ fieldAt r c ≠ []
      then some ((grouperLookup g k c).getD (fieldAt r c))
      else grouperLookup g k' c := by
  obtain ⟨g'', hg'', hp⟩ := memorizeAllFirst_eq select r k g hsort hval
  rw [hg'] at hg''
  injection hg'' with h
  subst h
  exact hp

theorem memorizeAllFirst_memLE (select : List Nat) (r k : VecRecord) (g g' : Grouper)
    (hsort : List.Pairwise (· < ·) select)
    (hval : ∀ i ∈ select, i < r.length)
    (hg' : memorizeAllFirst select r k g = some g') : memLE g g' := by
  intro K c v hv
  rw [memorizeAllFirst_lookup select r k g g' hsort hval hg' K c]
  split_ifs with h
  · obtain ⟨hk, _, _⟩ := h
    subst hk
    rw [hv]
    rfl
  · exact hv

theorem memorizeAllFirst_NE (select : List Nat) (r k : VecRecord) (g g' : Grouper)
    (hsort : List.Pairwise (· < ·) select)
    (hval : ∀ i ∈ select, i < r.length)
    (hg' : memorizeAllFirst select r k g = some g')
    (hne : grouperNE g) : grouperNE g' := by
  intro K c v hv
  rw [memorizeAllFirst_lookup select r k g g' hsort hval hg' K c] at hv
  split_ifs at hv with h
  · obtain ⟨hk, _, hf⟩ := h
    subst hk
    cases hlook : grouperLookup g k c with
    | none =>
      rw [hlook] at hv
      injection hv with h2
      subst h2
      exact hf
    | some w =>
      rw [hlook] at hv
      injection hv with h2
      subst h2
      exact hne k c w hlook
  · exact hne K c v hv

theorem fillField_fillField (g0 g' : Grouper) (hle : memLE g0 g')
    (hne : grouperNE g0) (K : VecRecord) (c : Nat) (f : ByteString) :
    Grouper.fillField g' K c (Grouper.fillField g0 K c f) =
      Grouper.fillField g' K c f := by
  rw [fillField_eq g0, fillField_eq g', fillField_eq g']
  by_cases hf : f = []
  · rw [if_pos hf, if_pos hf]
    cases hlook : grouperLookup g0 K c with
    | none => simp [hlook]
    | some v =>
      have hv : v ≠ [] := hne K c v hlook
      have hv' := hle K c v hlook
      simp [hlook, hv, hv']
  · rw [if_neg hf, if_neg hf]

theorem fillRecord_fillRecord (select : List Nat)
    (hsort : List.Pairwise (· < ·) select) (g0 g' : Grouper)
    (hle : memLE g0 g') (hne : grouperNE g0) (r K : VecRecord) :
    fillRecord (fillRecord r select g0 K) select g' K =
      fillRecord r select g' K := by
  apply List.ext_get?_iff.2
  intro n
  rw [fillRecord_get? _ _ _ _ hsort n, fillRecord_get? _ _ _ _ hsort n,
    fillRecord_get? _ _ _ _ hsort n]
  cases r.get? n with
  | none => rfl
  | some f =>
    simp only [Option.map_some']
    by_cases hm : n ∈ select
    · simp [hm, fillField_fillField g0 g' hle hne K n f]
    · simp [hm]

/-- The memory invariant of the first policy after processing `done`: for
every group and selected column the remembered value is the first
non-empty one seen so far in that group. -/
def MemInvFirst (groupby : Option (List Nat)) (select : List Nat)
    (g : Grouper) (done : List VecRecord) : Prop :=
  ∀ K c, c ∈ select →
    grouperLookup g K c = firstNonEmptyCol (groupRows groupby K done) c

theorem MemInvFirst_step (groupby : Option (List Nat)) (select : List Nat)
    (hsort : List.Pairwise (· < ·) select) (done : List VecRecord)
    (r key : VecRecord) (g g' : Grouper)
    (hval : ∀ i ∈ select, i < r.length)
    (hkey : groupbykey r groupby = some key)
    (hg' : memorizeAllFirst select r key g = some g')
    (hinv : MemInvFirst groupby select g done) :
    MemInvFirst groupby select g' (done ++ [r]) := by
  intro K c hc
  rw [memorizeAllFirst_lookup select r key g g' hsort hval hg' K c,
    groupRows_append, firstNonEmptyCol_append]
  by_cases hK : key = K
  · subst hK
    rw [groupRows_singleton_self _ _ _ hkey]
    by_cases hne : fieldAt r c = []
    · rw [if_neg (by tauto), hinv key c hc]
      cases hfc : firstNonEmptyCol (groupRows groupby key done) c <;>
        simp [firstNonEmptyCol, hne, hfc]
    · rw [if_pos ⟨rfl, hc, hne⟩, hinv key c hc]
      cases hfc : firstNonEmptyCol (groupRows groupby key done) c <;>
        simp [firstNonEmptyCol, hne, hfc]
  · rw [groupRows_singleton_other _ _ _ _ hkey hK, if_neg (by tauto), hinv K c hc]
    cases firstNonEmptyCol (groupRows groupby K done) c <;>
      simp [firstNonEmptyCol]

/-! ### Buffered rows and their originals -/

/-- Relation between a buffered (already filled once) row and its original
input row: the original belongs to group `K`, its selected indices are in
range, and the stored row is the original's fill at some memory state
below the current one. -/
def StoredRel (groupby : Option (List Nat)) (select : List Nat) (g : Grouper)
    (K orig stored : VecRecord) : Prop :=
  groupbykey orig groupby = some K ∧
  (∀ i ∈ select, i < orig.length) ∧
  ∃ g0, memLE g0 g ∧ grouperNE g0 ∧ stored = fillRecord orig select g0 K

/-- Buffer invariant: `origs` is a parallel table recording the original
input row of every buffered row. -/
def BufInv (groupby : Option (List Nat)) (select : List Nat) (g : Grouper)
    (buf origs : Buffer) : Prop :=
  List.Forall₂ (fun e o => e.1 = o.1 ∧
    List.Forall₂ (fun orig stored => StoredRel groupby select g e.1 orig stored)
      o.2 e.2) buf origs

/-- All buffered rows of a buffer, in table order. -/
def bufRows (b : Buffer) : List VecRecord := (b.map Prod.snd).join

theorem StoredRel_mono {groupby select g g' K orig stored}
    (hle : memLE g g') (h : StoredRel groupby select g K orig stored) :
    StoredRel groupby select g' K orig stored := by
  obtain ⟨h1, h2, g0, h3, h4, h5⟩ := h
  exact ⟨h1, h2, g0, memLE_trans h3 hle, h4, h5⟩

theorem BufInv_mono {groupby select g g' buf origs} (hle : memLE g g')
    (h : BufInv groupby select g buf origs) :
    BufInv groupby select g' buf origs := by
  refine List.Forall₂.imp ?_ h
  intro a b hab
  exact ⟨hab.1, hab.2.imp (fun _ _ hr => StoredRel_mono hle hr)⟩

theorem BufInv_push {groupby select g} (K orig stored : VecRecord)
    (hrel : StoredRel groupby select g K orig stored) :
    ∀ {buf origs}, BufInv groupby select g buf origs →
      BufInv groupby select g (bufferPush buf K stored) (bufferPush origs K orig) := by
  intro buf origs h
  induction h with
  | nil =>
    exact List.Forall₂.cons ⟨rfl, List.Forall₂.cons hrel List.Forall₂.nil⟩
      List.Forall₂.nil
  | @cons e o buf' origs' heo hrest ih =>
    obtain ⟨k1, rows1⟩ := e
    obtain ⟨k2, orows1⟩ := o
    obtain ⟨hk12, hrows⟩ := heo
    simp only at hk12
    subst hk12
    by_cases hk : k1 = K
    · simp only [bufferPush, if_pos hk]
      refine List.Forall₂.cons ⟨rfl, ?_⟩ hrest
      exact List.rel_append hrows
        (List.Forall₂.cons (by simpa [hk] using hrel) List.Forall₂.nil)
    · simp only [bufferPush, if_neg hk]
      exact List.Forall₂.cons ⟨rfl, hrows⟩ ih

theorem BufInv_remove {groupby select g} (K : VecRecord) :
    ∀ {buf origs}, BufInv groupby select g buf origs →
      List.Forall₂ (fun orig stored => StoredRel groupby select g K orig stored)
        (bufferRemove origs K).1 (bufferRemove buf K).1 ∧
      BufInv groupby select g (bufferRemove buf K).2 (bufferRemove origs K).2 := by
  intro buf origs h
  induction h with
  | nil => exact ⟨List.Forall₂.nil, List.Forall₂.nil⟩
  | @cons e o buf' origs' heo hrest ih =>
    obtain ⟨k1, rows1⟩ := e
    obtain ⟨k2, orows1⟩ := o
    obtain ⟨hk12, hrows⟩ := heo
    simp only at hk12
    subst hk12
    by_cases hk : k1 = K
    · simp only [bufferRemove, if_pos hk]
      subst hk
      exact ⟨hrows, hrest⟩
    · simp only [bufferRemove, if_neg hk]
      exact ⟨ih.1, List.Forall₂.cons ⟨rfl, hrows⟩ ih.2⟩

theorem bufRows_nil : bufRows [] = [] := rfl

theorem bufRows_cons (e : VecRecord × List VecRecord) (rest : Buffer) :
    bufRows (e :: rest) = e.2 ++ bufRows rest := rfl

theorem bufRows_push (buf : Buffer) (K : VecRecord) (row : VecRecord) :
    List.Perm (bufRows (bufferPush buf K row)) (row :: bufRows buf) := by
  induction buf with
  | nil => exact List.Perm.refl _
  | cons e rest ih =>
    obtain ⟨k1, rows1⟩ := e
    by_cases hk : k1 = K
    · simp only [bufferPush, if_pos hk, bufRows_cons]
      rw [List.append_assoc]
      exact List.perm_middle
    · simp only [bufferPush, if_neg hk, bufRows_cons]
      exact (List.Perm.append_left rows1 ih).trans List.perm_middle

theorem bufRows_remove (K : VecRecord) (buf : Buffer) :
    List.Perm (bufRows buf)
      ((bufferRemove buf K).1 ++ bufRows (bufferRemove buf K).2) := by
  induction buf with
  | nil => exact List.Perm.refl _
  | cons e rest ih =>
    obtain ⟨k1, rows1⟩ := e
    by_cases hk : k1 = K
    · simp only [bufferRemove, if_pos hk, bufRows_cons]
      exact List.Perm.refl _
    · simp only [bufferRemove, if_neg hk, bufRows_cons]
      refine (List.Perm.append_left rows1 ih).trans ?_
      rw [← List.append_assoc, ← List.append_assoc]
      exact List.Perm.append_right _ List.perm_append_comm

/-! ### The spec-side first-policy row value -/

/-- The final value of row `r` under the first policy with backfill: a
non-empty input field is kept unchanged; an empty selected field becomes
the group's first-ever non-empty value for that column over the whole
stream, or stays empty if there is none. -/
def firstSpecRow (groupby : Option (List Nat)) (select : List Nat)
    (records : List VecRecord) (r : VecRecord) : VecRecord :=
  r.enum.map (fun p =>
    if p.1 ∈ select ∧ p.2 = []
    then (firstNonEmptyCol
      (groupRows groupby ((groupbykey r groupby).getD []) records) p.1).getD []
    else p.2)

theorem firstSpecRow_get? (groupby : Option (List Nat)) (select : List Nat)
    (records : List VecRecord) (r : VecRecord) (c : Nat) :
    (firstSpecRow groupby select records r).get? c =
      (r.get? c).map (fun f =>
        if c ∈ select ∧ f = []
        then (firstNonEmptyCol
          (groupRows groupby ((groupbykey r groupby).getD []) records) c).getD []
        else f) := by
  unfold firstSpecRow
  rw [List.get?_map, List.get?_enum]
  cases r.get? c <;> simp

theorem firstSpecRow_length (groupby : Option (List Nat)) (select : List Nat)
    (records : List VecRecord) (r : VecRecord) :
    (firstSpecRow groupby select records r).length = r.length := by
  unfold firstSpecRow
  rw [List.length_map, List.enum_length]

theorem fillRecord_eq_firstSpecRow (groupby : Option (List Nat)) (select : List Nat)
    (records : List VecRecord) (hsort : List.Pairwise (· < ·) select)
    (g : Grouper) (K orig : VecRecord)
    (hk : groupbykey orig groupby = some K)
    (hval : ∀ i ∈ select, i < orig.length)
    (hmem : ∀ c ∈ select, grouperLookup g K c =
      firstNonEmptyCol (groupRows groupby K records) c) :
    fillRecord orig select g K = firstSpecRow groupby select records orig := by
  apply List.ext_get?_iff.2
  intro c
  rw [fillRecord_get? _ _ _ _ hsort c, firstSpecRow_get?]
  cases horig : orig.get? c with
  | none => rfl
  | some f =>
    simp only [Option.map_some']
    by_cases hm : c ∈ select
    · rw [if_pos hm, fillField_eq]
      by_cases hf : f = []
      · rw [if_pos hf, if_pos ⟨hm, hf⟩, hmem c hm, hk]
        rfl
      · rw [if_neg hf, if_neg (by tauto)]
    · rw [if_neg hm, if_neg (by tauto)]

/-! ### The resolution test -/

theorem anyEmptyAt_eq (select : List Nat) (row : VecRecord)
    (hval : ∀ i ∈ select, i < row.length) :
    anyEmptyAt select row = some (decide (∃ c ∈ select, fieldAt row c = [])) := by
  induction select with
  | nil => simp [anyEmptyAt]
  | cons i rest ih =>
    have hi := hval i (List.mem_cons_self i rest)
    have hstep : anyEmptyAt (i :: rest) row =
        (if fieldAt row i = [] then some true else anyEmptyAt rest row) := by
      simp only [anyEmptyAt]
      rw [get?_eq_fieldAt row i hi]
    rw [hstep]
    by_cases hf : fieldAt row i = []
    · rw [if_pos hf]
      have hex : ∃ c ∈ i :: rest, fieldAt row c = [] :=
        ⟨i, List.mem_cons_self i rest, hf⟩
      rw [decide_eq_true hex]
    · rw [if_neg hf, ih (fun j hj => hval j (List.mem_cons_of_mem _ hj))]
      have hiff : (∃ c ∈ rest, fieldAt row c = []) ↔
          (∃ c ∈ i :: rest, fieldAt row c = []) := by
        constructor
        · rintro ⟨c, hc, h⟩
          exact ⟨c, List.mem_cons_of_mem _ hc, h⟩
        · rintro ⟨c, hc, h⟩
          rcases List.mem_cons.1 hc with rfl | hc'
          · exact absurd h hf
          · exact ⟨c, hc', h⟩
      exact congrArg some (decide_eq_decide.2 hiff)

theorem fieldAt_fillRecord (select : List Nat)
    (hsort : List.Pairwise (· < ·) select) (g : Grouper) (r key : VecRecord)
    (c : Nat) (hc : c ∈ select) (hcl : c < r.length) :
    fieldAt (fillRecord r select g key) c =
      (if fieldAt r c = [] then (grouperLookup g key c).getD []
       else fieldAt r c) := by
  unfold fieldAt
  rw [fillRecord_get? _ _ _ _ hsort c, get?_eq_fieldAt r c hcl]
  simp only [Option.map_some', if_pos hc, fillField_eq]
  rfl

theorem cov_of_resolved (groupby : Option (List Nat)) (select : List Nat)
    (hsort : List.Pairwise (· < ·) select) (r key : VecRecord) (g g' : Grouper)
    (hval : ∀ i ∈ select, i < r.length)
    (hg' : memorizeAllFirst select r key g = some g')
    (hres : ∀ c ∈ select, fieldAt (fillRecord r select g' key) c ≠ []) :
    ∀ c ∈ select, (grouperLookup g' key c).isSome = true := by
  intro c hc
  have hcl : c < r.length := hval c hc
  by_cases hf : fieldAt r c = []
  · have hrc := hres c hc
    rw [fieldAt_fillRecord select hsort g' r key c hc hcl, if_pos hf] at hrc
    cases hlook : grouperLookup g' key c with
    | none =>
      rw [hlook] at hrc
      exact absurd rfl hrc
    | some v => rfl
  · rw [memorizeAllFirst_lookup select r key g g' hsort hval hg' key c,
      if_pos ⟨rfl, hc, hf⟩]
    rfl

theorem MemInvFirst_global (groupby : Option (List Nat)) (select : List Nat)
    (records done rest : List VecRecord) (hsplit : records = done ++ rest)
    (g : Grouper) (K : VecRecord)
    (hinv : MemInvFirst groupby select g done)
    (hcov : ∀ c ∈ select, (grouperLookup g K c).isSome = true) :
    ∀ c ∈ select, grouperLookup g K c =
      firstNonEmptyCol (groupRows groupby K records) c := by
  intro c hc
  obtain ⟨v, hv⟩ := Option.isSome_iff_exists.1 (hcov c hc)
  have h1 : firstNonEmptyCol (groupRows groupby K done) c = some v :=
    (hinv K c hc).symm.trans hv
  rw [hsplit, groupRows_append, firstNonEmptyCol_append, h1, hv]

theorem map_fill_eq_map_spec (groupby : Option (List Nat)) (select : List Nat)
    (records : List VecRecord) (hsort : List.Pairwise (· < ·) select)
    (g : Grouper) (K : VecRecord)
    (hmemK : ∀ c ∈ select, grouperLookup g K c =
      firstNonEmptyCol (groupRows groupby K records) c) :
    ∀ {os ss : List VecRecord},
      List.Forall₂ (fun orig stored => StoredRel groupby select g K orig stored) os ss →
      ss.map (fun b => fillRecord b select g K) =
        os.map (firstSpecRow groupby select records) := by
  intro os ss h
  induction h with
  | nil => rfl
  | @cons orig stored os' ss' hos htail ihtail =>
    simp only [List.map_cons]
    obtain ⟨hkorig, hvalorig, g0, hle, hne0, hstored⟩ := hos
    rw [hstored, fillRecord_fillRecord select hsort g0 g hle hne0 orig K,
      fillRecord_eq_firstSpecRow groupby select records hsort g K orig
        hkorig hvalorig hmemK, ihtail]

theorem flushBuffer_eq (groupby : Option (List Nat)) (select : List Nat)
    (records : List VecRecord) (hsort : List.Pairwise (· < ·) select)
    (g : Grouper) (hmem : MemInvFirst groupby select g records) :
    ∀ {buf origs : Buffer}, BufInv groupby select g buf origs →
      flushBuffer select g buf =
        (bufRows origs).map (firstSpecRow groupby select records) := by
  intro buf origs h
  induction h with
  | nil => rfl
  | @cons e o buf' origs' heo hrest ih =>
    obtain ⟨k1, rows1⟩ := e
    obtain ⟨k2, orows1⟩ := o
    obtain ⟨hk12, hrows⟩ := heo
    simp only at hk12
    subst hk12
    simp only [flushBuffer, bufRows_cons, List.map_append]
    rw [map_fill_eq_map_spec groupby select records hsort g k1
      (fun c hc => hmem k1 c hc) hrows, ih]

theorem firstRunLoop_perm (groupby : Option (List Nat)) (select : List Nat)
    (records : List VecRecord)
    (hsort : List.Pairwise (· < ·) select)
    (hval : ∀ r ∈ records, ∀ i ∈ select, i < r.length)
    (hgrp : ∀ r ∈ records, (groupbykey r groupby).isSome = true) :
    ∀ (rest done : List VecRecord) (g : Grouper) (buf origs : Buffer),
      records = done ++ rest →
      MemInvFirst groupby select g done →
      grouperNE g →
      BufInv groupby select g buf origs →
      (firstRunLoop groupby select g buf rest).2.2.2 = true ∧
      MemInvFirst groupby select (firstRunLoop groupby select g buf rest).2.1 records ∧
      List.Perm
        ((firstRunLoop groupby select g buf rest).1 ++
          flushBuffer select (firstRunLoop groupby select g buf rest).2.1
            (firstRunLoop groupby select g buf rest).2.2.1)
        ((rest ++ bufRows origs).map (firstSpecRow groupby select records)) := by
  intro rest
  induction rest with
  | nil =>
    intro done g buf origs hsplit hmem hne hbuf
    rw [List.append_nil] at hsplit
    subst hsplit
    refine ⟨rfl, hmem, ?_⟩
    simp only [firstRunLoop, List.nil_append]
    rw [flushBuffer_eq groupby select records hsort g hmem hbuf]
  | cons r rest' ih =>
    intro done g buf origs hsplit hmem hne hbuf
    have hrmem : r ∈ records := by
      rw [hsplit]
      exact List.mem_append.2 (Or.inr (List.mem_cons_self r rest'))
    have hrval := hval r hrmem
    obtain ⟨key, hkeyeq⟩ := Option.isSome_iff_exists.1 (hgrp r hrmem)
    obtain ⟨g', hg'⟩ : ∃ g', memorizeAllFirst select r key g = some g' := by
      obtain ⟨g'', h, -⟩ := memorizeAllFirst_eq select r key g hsort hrval
      exact ⟨g'', h⟩
    have hle : memLE g g' := memorizeAllFirst_memLE select r key g g' hsort hrval hg'
    have hne' : grouperNE g' := memorizeAllFirst_NE select r key g g' hsort hrval hg' hne
    have hmem' : MemInvFirst groupby select g' (done ++ [r]) :=
      MemInvFirst_step groupby select hsort done r key g g' hrval hkeyeq hg' hmem
    have hbuf' : BufInv groupby select g' buf origs := BufInv_mono hle hbuf
    have hsplit' : records = (done ++ [r]) ++ rest' := by
      rw [hsplit, List.append_assoc]
      rfl
    have hrowval : ∀ i ∈ select, i < (fillRecord r select g' key).length := by
      rw [fillRecord_length]
      exact hrval
    by_cases hres : ∃ c ∈ select, fieldAt (fillRecord r select g' key) c = []
    · -- the filled row still has an empty target field: it is buffered
      have hany : anyEmptyAt select (fillRecord r select g' key) = some true := by
        rw [anyEmptyAt_eq select _ hrowval, decide_eq_true hres]
      have hstep : firstStep groupby select g buf r =
          some (g', bufferPush buf key (fillRecord r select g' key), []) := by
        simp only [firstStep, hkeyeq, hg', hany]
      have hrel : StoredRel groupby select g' key r (fillRecord r select g' key) :=
        ⟨hkeyeq, hrval, g', memLE_refl g', hne', rfl⟩
      have hbufp : BufInv groupby select g'
          (bufferPush buf key (fillRecord r select g' key)) (bufferPush origs key r) :=
        BufInv_push key r (fillRecord r select g' key) hrel hbuf'
      obtain ⟨ihok, ihmem, ihperm⟩ := ih (done ++ [r]) g'
        (bufferPush buf key (fillRecord r select g' key)) (bufferPush origs key r)
        hsplit' hmem' hne' hbufp
      have hloop : firstRunLoop groupby select g buf (r :: rest') =
          ([] ++ (firstRunLoop groupby select g'
              (bufferPush buf key (fillRecord r select g' key)) rest').1,
            (firstRunLoop groupby select g'
              (bufferPush buf key (fillRecord r select g' key)) rest').2) := by
        simp only [firstRunLoop, hstep]
      rw [hloop]
      refine ⟨ihok, ihmem, ?_⟩
      simp only [List.nil_append]
      refine ihperm.trans ?_
      refine (List.Perm.map _ (List.Perm.append_left rest'
        (bufRows_push origs key r))).trans ?_
      exact List.Perm.map _ List.perm_middle
    · -- the filled row is fully resolved: drain the group's buffer
      have hresb : ∀ c ∈ select, fieldAt (fillRecord r select g' key) c ≠ [] := by
        intro c hc hcontra
        exact hres ⟨c, hc, hcontra⟩
      have hany : anyEmptyAt select (fillRecord r select g' key) = some false := by
        rw [anyEmptyAt_eq select _ hrowval, decide_eq_false hres]
      have hstep : firstStep groupby select g buf r =
          some (g', (bufferRemove buf key).2,
            (bufferRemove buf key).1.map (fun b => fillRecord b select g' key) ++
              [fillRecord r select g' key]) := by
        simp only [firstStep, hkeyeq, hg', hany]
      have hcov := cov_of_resolved groupby select hsort r key g g' hrval hg' hresb
      have hglobal : ∀ c ∈ select, grouperLookup g' key c =
          firstNonEmptyCol (groupRows groupby key records) c :=
        MemInvFirst_global groupby select records (done ++ [r]) rest' hsplit' g' key
          hmem' hcov
      obtain ⟨hdrel, hdbuf⟩ := BufInv_remove key hbuf'
      have hdrain : (bufferRemove buf key).1.map (fun b => fillRecord b select g' key) =
          (bufferRemove origs key).1.map (firstSpecRow groupby select records) :=
        map_fill_eq_map_spec groupby select records hsort g' key hglobal hdrel
      have hrowspec : fillRecord r select g' key =
          firstSpecRow groupby select records r :=
        fillRecord_eq_firstSpecRow groupby select records hsort g' key r
          hkeyeq hrval hglobal
      obtain ⟨ihok, ihmem, ihperm⟩ := ih (done ++ [r]) g' (bufferRemove buf key).2
        (bufferRemove origs key).2 hsplit' hmem' hne' hdbuf
      have hloop : firstRunLoop groupby select g buf (r :: rest') =
          (((bufferRemove buf key).1.map (fun b => fillRecord b select g' key) ++
              [fillRecord r select g' key]) ++
            (firstRunLoop groupby select g' (bufferRemove buf key).2 rest').1,
            (firstRunLoop groupby select g' (bufferRemove buf key).2 rest').2) := by
        simp only [firstRunLoop, hstep]
      rw [hloop]
      refine ⟨ihok, ihmem, ?_⟩
      rw [hdrain, hrowspec]
      -- normalise both sides into mapped append shapes, then permute
      refine List.Perm.trans ?_
        ((List.Perm.map _ (List.Perm.append_left (r :: rest')
          (bufRows_remove key origs).symm)))
      rw [List.append_assoc]
      refine List.Perm.trans (List.Perm.append_left _ ihperm) ?_
      simp only [List.map_append, List.map_cons, List.cons_append]
      rw [List.append_assoc]
      refine List.perm_middle.trans ?_
      refine List.Perm.cons _ ?_
      simp only [List.append_eq, List.nil_append]
      rw [← List.append_assoc, ← List.append_assoc]
      exact List.Perm.append_right _ List.perm_append_comm

theorem grouperNE_nil : grouperNE [] := fun _ _ _ h => Option.noConfusion h

theorem memInvFirst_nil (groupby : Option (List Nat)) (select : List Nat) :
    MemInvFirst groupby select [] [] := fun _ _ _ => rfl

theorem firstRun_perm (groupby : Option (List Nat)) (select : List Nat)
    (records : List VecRecord)
    (hsort : List.Pairwise (· < ·) select)
    (hval : ∀ r ∈ records, ∀ i ∈ select, i < r.length)
    (hgrp : ∀ r ∈ records, (groupbykey r groupby).isSome = true) :
    (firstRun groupby select records).2 = true ∧
    List.Perm (firstRun groupby select records).1
      (records.map (firstSpecRow groupby select records)) ∧
    MemInvFirst groupby select (firstRunLoop groupby select [] [] records).2.1
      records := by
  obtain ⟨hok, hmem, hperm⟩ := firstRunLoop_perm groupby select records hsort hval
    hgrp records [] [] [] [] rfl (memInvFirst_nil groupby select) grouperNE_nil
    List.Forall₂.nil
  have hout : firstRun groupby select records =
      ((firstRunLoop groupby select [] [] records).1 ++
        flushBuffer select (firstRunLoop groupby select [] [] records).2.1
          (firstRunLoop groupby select [] [] records).2.2.1, true) := by
    simp only [firstRun, hok, if_true]
  rw [hout]
  refine ⟨rfl, ?_, hmem⟩
  simpa [bufRows_nil] using hperm

/-- Counterexample to C2 as stated: first policy, target column `0`, no
grouping, input rows `[a]` then `[f]`.  The group's first-seen non-empty
value for column 0 is `a`, yet the emitted value at row 1 is `f` — a row
whose own input field is non-empty outputs that value, and the first-seen
value does not override it. -/
theorem c2_first_fill_counterexample :
    firstNonEmptyCol (groupRows none [] [[[97]], [[102]]]) 0 = some [97] ∧
    (firstRun none [0] [[[97]], [[102]]]).1 = [[[97]], [[102]]] ∧
    ((firstRun none [0] [[[97]], [[102]]]).1.get? 1).bind (fun row => row.get? 0) =
      some [102] ∧ ¬([102] : ByteString) = [97] := by
  decide

/-- C2 (amended): First policy: the group's remembered value for a target
column is the first non-empty input value ever seen in that group and a
later non-empty value never overrides it; the emitted rows are exactly the
input rows (up to the documented cross-group emission order), where every
row whose input field for that column is empty outputs that first-seen
value — before and after the first sighting, once backfill resolves it —
while a row whose own input field is non-empty outputs its input value
unchanged. -/
theorem c2_first_fill_amended (groupby : Option (List Nat)) (select : List Nat)
    (records : List VecRecord)
    (hsort : List.Pairwise (· < ·) select)
    (hval : ∀ r ∈ records, ∀ i ∈ select, i < r.length)
    (hgrp : ∀ r ∈ records, (groupbykey r groupby).isSome = true) :
    (firstRun groupby select records).2 = true ∧
    List.Perm (firstRun groupby select records).1
      (records.map (firstSpecRow groupby select records)) ∧
    (∀ r ∈ records, ∀ c ∈ select,
      (firstSpecRow groupby select records r).get? c =
        some (if fieldAt r c = []
          then (firstNonEmptyCol (groupRows groupby
            ((groupbykey r groupby).getD []) records) c).getD []
          else fieldAt r c)) ∧
    (∀ K c, c ∈ select →
      grouperLookup (firstRunLoop groupby select [] [] records).2.1 K c =
        firstNonEmptyCol (groupRows groupby K records) c) := by
  obtain ⟨hok, hperm, hmem⟩ := firstRun_perm groupby select records hsort hval hgrp
  refine ⟨hok, hperm, ?_, fun K c hc => hmem K c hc⟩
  intro r hr c hc
  rw [firstSpecRow_get?, get?_eq_fieldAt r c (hval r hr c hc)]
  simp only [Option.map_some']
  by_cases hf : fieldAt r c = []
  · rw [if_pos ⟨hc, hf⟩, if_pos hf]
  · rw [if_neg (by tauto), if_neg hf]

/-- Witness for the amended C2 at a concrete input: no grouping, target
column `0`, rows `[empty]` then `[a]`; the leading empty row is backfilled
with the first-seen value `a`. -/
theorem c2_first_fill_amended_witness :
    (firstRun none [0] [[[]], [[97]]]).2 = true ∧
    List.Perm (firstRun none [0] [[[]], [[97]]]).1
      (([[[]], [[97]]] : List VecRecord).map (firstSpecRow none [0] [[[]], [[97]]])) ∧
    (∀ r ∈ ([[[]], [[97]]] : List VecRecord), ∀ c ∈ [0],
      (firstSpecRow none [0] [[[]], [[97]]] r).get? c =
        some (if fieldAt r c = []
          then (firstNonEmptyCol (groupRows none
            ((groupbykey r none).getD []) [[[]], [[97]]]) c).getD []
          else fieldAt r c)) ∧
    (∀ K c, c ∈ [0] →
      grouperLookup (firstRunLoop none [0] [] [] [[[]], [[97]]]).2.1 K c =
        firstNonEmptyCol (groupRows none K [[[]], [[97]]]) c) :=
  c2_first_fill_amended none [0] [[[]], [[97]]] (by decide) (by decide) (by decide)

/-- Frame property between an input row and an output row: same column
count, non-target fields byte-equal, and a target field that was non-empty
in the input unchanged. -/
def FrameProp (select : List Nat) (input out : VecRecord) : Prop :=
  out.length = input.length ∧
  (∀ c, c ∉ select → out.get? c = input.get? c) ∧
  (∀ c ∈ select, fieldAt input c ≠ [] → out.get? c = input.get? c)

theorem firstSpecRow_frameProp (groupby : Option (List Nat)) (select : List Nat)
    (records : List VecRecord) (r : VecRecord) :
    FrameProp select r (firstSpecRow groupby select records r) := by
  refine ⟨firstSpecRow_length groupby select records r, ?_, ?_⟩
  · intro c hc
    rw [firstSpecRow_get?]
    cases r.get? c with
    | none => rfl
    | some f => simp [hc]
  · intro c hc hne
    rw [firstSpecRow_get?]
    cases hg : r.get? c with
    | none => rfl
    | some f =>
      have hnot : ¬(c ∈ select ∧ f = []) := by
        rintro ⟨-, hf⟩
        apply hne
        unfold fieldAt
        rw [hg, hf]
        rfl
      simp only [Option.map_some']
      rw [if_neg hnot]

/-- C3: Frame condition under every policy and grouping configuration
(precondition: the target selection is sorted ascending with distinct
indices, as §4.1 assumes, and configured indices are in range): every
forward-policy output row has its input row's column count, byte-equal
non-target fields, and unchanged non-empty target fields; the first-policy
output is exactly a per-input-row transform with the same three frame
properties. -/
theorem c3_frame_condition (groupby : Option (List Nat)) (select : List Nat)
    (records : List VecRecord)
    (hsort : List.Pairwise (· < ·) select)
    (hval : ∀ r ∈ records, ∀ i ∈ select, i < r.length)
    (hgrp : ∀ r ∈ records, (groupbykey r groupby).isSome = true) :
    (∀ i, ∀ hi : i < records.length, ∃ row,
      (forwardRun groupby select records).1.get? i = some row ∧
      FrameProp select (records.get ⟨i, hi⟩) row) ∧
    List.Perm (firstRun groupby select records).1
      (records.map (firstSpecRow groupby select records)) ∧
    (∀ r ∈ records, FrameProp select r (firstSpecRow groupby select records r)) := by
  refine ⟨?_, (firstRun_perm groupby select records hsort hval hgrp).2.1,
    fun r _ => firstSpecRow_frameProp groupby select records r⟩
  intro i hi
  obtain ⟨row, h1, h2, h3, h4⟩ :=
    forwardRunFrom_frame groupby select hsort records [] hval hgrp i hi
  exact ⟨row, h1, h2, h3, h4⟩

/-- Witness for C3 at a concrete input: two rows, one group, target
column `0`. -/
theorem c3_frame_condition_witness :
    (∀ i, ∀ hi : i < ([[[97], [5]], [[], [7]]] : List VecRecord).length, ∃ row,
      (forwardRun none [0] [[[97], [5]], [[], [7]]]).1.get? i = some row ∧
      FrameProp [0] (([[[97], [5]], [[], [7]]] : List VecRecord).get ⟨i, hi⟩) row) ∧
    List.Perm (firstRun none [0] [[[97], [5]], [[], [7]]]).1
      (([[[97], [5]], [[], [7]]] : List VecRecord).map
        (firstSpecRow none [0] [[[97], [5]], [[], [7]]])) ∧
    (∀ r ∈ ([[[97], [5]], [[], [7]]] : List VecRecord),
      FrameProp [0] r (firstSpecRow none [0] [[[97], [5]], [[], [7]]] r)) :=
  c3_frame_condition none [0] [[[97], [5]], [[], [7]]] (by decide) (by decide)
    (by decide)

/-- C4: For every input stream and every configuration (policy, grouping),
under the spec's well-formedness assumptions the run succeeds and the
number of emitted output records equals the number of input records. -/
theorem c4_row_count (first : Bool) (groupby : Option (List Nat))
    (select : List Nat) (records : List VecRecord)
    (hsort : List.Pairwise (· < ·) select)
    (hval : ∀ r ∈ records, ∀ i ∈ select, i < r.length)
    (hgrp : ∀ r ∈ records, (groupbykey r groupby).isSome = true) :
    (runFill first groupby select records).2 = true ∧
    (runFill first groupby select records).1.length = records.length := by
  cases first with
  | false =>
    obtain ⟨hok, -⟩ := forwardRunFrom_spec groupby select records hsort hval hgrp
      records [] [] rfl (fun K c _ => rfl)
    have hlen := forwardRunFrom_length groupby select records [] hok
    exact ⟨hok, hlen⟩
  | true =>
    obtain ⟨hok, hperm, -⟩ := firstRun_perm groupby select records hsort hval hgrp
    refine ⟨hok, ?_⟩
    show (firstRun groupby select records).1.length = records.length
    rw [hperm.length_eq, List.length_map]

/-- Witness for C4 at a concrete input, first policy. -/
theorem c4_row_count_witness :
    (runFill true none [0] [[[]], [[97]], [[]]]).2 = true ∧
    (runFill true none [0] [[[]], [[97]], [[]]]).1.length =
      ([[[]], [[97]], [[]]] : List VecRecord).length :=
  c4_row_count true none [0] [[[]], [[97]], [[]]] (by decide) (by decide) (by decide)

theorem flushBuffer_length (select : List Nat) (g : Grouper) :
    ∀ buf : Buffer, (flushBuffer select g buf).length = (bufRows buf).length := by
  intro buf
  induction buf with
  | nil => rfl
  | cons e rest ih =>
    obtain ⟨k, rows⟩ := e
    simp only [flushBuffer, bufRows_cons, List.length_append, List.length_map, ih]

/-- C5: Backfill buffering under the first policy: a processed record is
buffered exactly when, after fill application, some target column of the
filled row is still empty; a fully resolved record first drains its
group's entire pending buffer — each buffered row re-filled with the
group's current memory, in original buffering order — and is then emitted
itself; on normal end of stream the output is the loop output followed by
a flush containing every remaining buffered row. -/
theorem c5_backfill_buffering (groupby : Option (List Nat)) (select : List Nat)
    (hsort : List.Pairwise (· < ·) select) :
    (∀ (g g' : Grouper) (buf : Buffer) (r key : VecRecord),
      (∀ i ∈ select, i < r.length) →
      groupbykey r groupby = some key →
      memorizeAllFirst select r key g = some g' →
      firstStep groupby select g buf r =
        (if ∃ c ∈ select, fieldAt (fillRecord r select g' key) c = []
         then some (g', bufferPush buf key (fillRecord r select g' key), [])
         else some (g', (bufferRemove buf key).2,
           (bufferRemove buf key).1.map (fun b => fillRecord b select g' key) ++
             [fillRecord r select g' key]))) ∧
    (∀ (g : Grouper) (buf : Buffer),
      (flushBuffer select g buf).length = (bufRows buf).length) ∧
    (∀ records : List VecRecord,
      (firstRunLoop groupby select [] [] records).2.2.2 = true →
      (firstRun groupby select records).1 =
        (firstRunLoop groupby select [] [] records).1 ++
          flushBuffer select (firstRunLoop groupby select [] [] records).2.1
            (firstRunLoop groupby select [] [] records).2.2.1) := by
  refine ⟨?_, fun g buf => flushBuffer_length select g buf, ?_⟩
  · intro g g' buf r key hval hkey hg'
    have hrowval : ∀ i ∈ select, i < (fillRecord r select g' key).length := by
      rw [fillRecord_length]
      exact hval
    by_cases hres : ∃ c ∈ select, fieldAt (fillRecord r select g' key) c = []
    · have hany : anyEmptyAt select (fillRecord r select g' key) = some true := by
        rw [anyEmptyAt_eq select _ hrowval, decide_eq_true hres]
      rw [if_pos hres]
      simp only [firstStep, hkey, hg', hany]
    · have hany : anyEmptyAt select (fillRecord r select g' key) = some false := by
        rw [anyEmptyAt_eq select _ hrowval, decide_eq_false hres]
      rw [if_neg hres]
      simp only [firstStep, hkey, hg', hany]
  · intro records hok
    simp only [firstRun, hok, if_true]

/-- Witness for C5 at a concrete configuration (no grouping, target
column `0`). -/
theorem c5_backfill_buffering_witness :
    (∀ (g g' : Grouper) (buf : Buffer) (r key : VecRecord),
      (∀ i ∈ [0], i < r.length) →
      groupbykey r none = some key →
      memorizeAllFirst [0] r key g = some g' →
      firstStep none [0] g buf r =
        (if ∃ c ∈ [0], fieldAt (fillRecord r [0] g' key) c = []
         then some (g', bufferPush buf key (fillRecord r [0] g' key), [])
         else some (g', (bufferRemove buf key).2,
           (bufferRemove buf key).1.map (fun b => fillRecord b [0] g' key) ++
             [fillRecord r [0] g' key]))) ∧
    (∀ (g : Grouper) (buf : Buffer),
      (flushBuffer [0] g buf).length = (bufRows buf).length) ∧
    (∀ records : List VecRecord,
      (firstRunLoop none [0] [] [] records).2.2.2 = true →
      (firstRun none [0] records).1 =
        (firstRunLoop none [0] [] [] records).1 ++
          flushBuffer [0] (firstRunLoop none [0] [] [] records).2.1
            (firstRunLoop none [0] [] [] records).2.2.1) :=
  c5_backfill_buffering none [0] (by decide)

/-- C6: forward policy (backfill disabled): the run succeeds, emits
exactly one output row per input row, and is streaming: the output of any
input prefix is the corresponding prefix of the full output, so the global
output order equals the input row order (in particular within every
group). -/
theorem c6_forward_order (groupby : Option (List Nat)) (select : List Nat)
    (records : List VecRecord)
    (hsort : List.Pairwise (· < ·) select)
    (hval : ∀ r ∈ records, ∀ i ∈ select, i < r.length)
    (hgrp : ∀ r ∈ records, (groupbykey r groupby).isSome = true) :
    (forwardRun groupby select records).2.2 = true ∧
    (forwardRun groupby select records).1.length = records.length ∧
    (∀ k, k ≤ records.length →
      (forwardRun groupby select (records.take k)).1 =
        (forwardRun groupby select records).1.take k) := by
  obtain ⟨hok, -⟩ := forwardRunFrom_spec groupby select records hsort hval hgrp
    records [] [] rfl (fun K c _ => rfl)
  refine ⟨hok, forwardRunFrom_length groupby select records [] hok, ?_⟩
  intro k hk
  have hvalk : ∀ r ∈ records.take k, ∀ i ∈ select, i < r.length :=
    fun r hr => hval r (List.take_subset k records hr)
  have hgrpk : ∀ r ∈ records.take k, (groupbykey r groupby).isSome = true :=
    fun r hr => hgrp r (List.take_subset k records hr)
  obtain ⟨hok1, -⟩ := forwardRunFrom_spec groupby select (records.take k) hsort
    hvalk hgrpk (records.take k) [] [] rfl (fun K c _ => rfl)
  have hlen1 := forwardRunFrom_length groupby select (records.take k) [] hok1
  have happ := forwardRunFrom_append groupby select (records.take k)
    (records.drop k) [] hok1
  show (forwardRunFrom groupby select [] (records.take k)).1 =
    (forwardRunFrom groupby select [] records).1.take k
  conv_rhs => rw [← List.take_append_drop k records]
  rw [happ]
  exact (List.take_left' (by rw [hlen1, List.length_take]; omega)).symm

/-- Witness for C6 at a concrete input. -/
theorem c6_forward_order_witness :
    (forwardRun none [0] [[[97]], [[]]]).2.2 = true ∧
    (forwardRun none [0] [[[97]], [[]]]).1.length =
      ([[[97]], [[]]] : List VecRecord).length ∧
    (∀ k, k ≤ ([[[97]], [[]]] : List VecRecord).length →
      (forwardRun none [0] (([[[97]], [[]]] : List VecRecord).take k)).1 =
        (forwardRun none [0] [[[97]], [[]]]).1.take k) :=
  c6_forward_order none [0] [[[97]], [[]]] (by decide) (by decide) (by decide)

/-! ### Group scoping: every memory entry derives from its own group -/

/-- Every entry of the group table derives from a processed record of the
same group: the remembered value at `(K, c)` is the field at column `c` of
some row whose group key is `K`. -/
def GrouperDerived (groupby : Option (List Nat)) (rows : List VecRecord)
    (g : Grouper) : Prop :=
  ∀ K m, (K, m) ∈ g → ∀ c v, (c, v) ∈ m →
    ∃ r ∈ rows, groupbykey r groupby = some K ∧ r.get? c = some v

theorem gvInsert_mem (m : GroupValues) (c : Nat) (v : ByteString) :
    ∀ p ∈ gvInsert m c v, p = (c, v) ∨ p ∈ m := by
  induction m with
  | nil =>
    intro p hp
    simp only [gvInsert, List.mem_singleton] at hp
    exact Or.inl hp
  | cons hd tl ih =>
    obtain ⟨c0, v0⟩ := hd
    intro p hp
    by_cases h : c0 = c
    · simp only [gvInsert, if_pos h] at hp
      rcases List.mem_cons.1 hp with rfl | hp'
      · exact Or.inl (by rw [h])
      · exact Or.inr (List.mem_cons_of_mem _ hp')
    · simp only [gvInsert, if_neg h] at hp
      rcases List.mem_cons.1 hp with rfl | hp'
      · exact Or.inr (List.mem_cons_self _ _)
      · rcases ih p hp' with h1 | h2
        · exact Or.inl h1
        · exact Or.inr (List.mem_cons_of_mem _ h2)

theorem gvOrInsert_mem (m : GroupValues) (c : Nat) (v : ByteString) :
    ∀ p ∈ gvOrInsert m c v, p = (c, v) ∨ p ∈ m := by
  induction m with
  | nil =>
    intro p hp
    simp only [gvOrInsert, List.mem_singleton] at hp
    exact Or.inl hp
  | cons hd tl ih =>
    obtain ⟨c0, v0⟩ := hd
    intro p hp
    by_cases h : c0 = c
    · simp only [gvOrInsert, if_pos h] at hp
      exact Or.inr hp
    · simp only [gvOrInsert, if_neg h] at hp
      rcases List.mem_cons.1 hp with rfl | hp'
      · exact Or.inr (List.mem_cons_self _ _)
      · rcases ih p hp' with h1 | h2
        · exact Or.inl h1
        · exact Or.inr (List.mem_cons_of_mem _ h2)

theorem GrouperDerived_memorize {groupby : Option (List Nat)}
    {rows : List VecRecord} {g : Grouper} (h : GrouperDerived groupby rows g)
    (k : VecRecord) (c : Nat) (v : ByteString)
    (hder : ∃ r ∈ rows, groupbykey r groupby = some k ∧ r.get? c = some v) :
    GrouperDerived groupby rows (Grouper.memorize g k c v) := by
  induction g with
  | nil =>
    intro K m hKm c' v' hcv
    simp only [Grouper.memorize, List.mem_singleton] at hKm
    injection hKm with h1 h2
    subst h1
    subst h2
    rcases List.mem_singleton.1 hcv with heq
    injection heq with h3 h4
    subst h3
    subst h4
    exact hder
  | cons hd tl ih =>
    obtain ⟨k0, m0⟩ := hd
    intro K m hKm c' v' hcv
    by_cases hk : k0 = k
    · simp only [Grouper.memorize, if_pos hk] at hKm
      rcases List.mem_cons.1 hKm with heq | hmem
      · injection heq with h1 h2
        subst h1
        subst h2
        rcases gvInsert_mem m0 c v (c', v') hcv with heq2 | hmem2
        · injection heq2 with h3 h4
          subst h3
          subst h4
          rw [hk]
          exact hder
        · exact h K m0 (List.mem_cons_self _ _) c' v' hmem2
      · exact h K m (List.mem_cons_of_mem _ hmem) c' v' hcv
    · simp only [Grouper.memorize, if_neg hk] at hKm
      rcases List.mem_cons.1 hKm with heq | hmem
      · injection heq with h1 h2
        subst h1
        subst h2
        exact h K m (List.mem_cons_self _ _) c' v' hcv
      · exact ih (fun K' m' hm' c2 v2 hc2 =>
          h K' m' (List.mem_cons_of_mem _ hm') c2 v2 hc2) K m hmem c' v' hcv

theorem GrouperDerived_memorizeFirst {groupby : Option (List Nat)}
    {rows : List VecRecord} {g : Grouper} (h : GrouperDerived groupby rows g)
    (k : VecRecord) (c : Nat) (v : ByteString)
    (hder : ∃ r ∈ rows, groupbykey r groupby = some k ∧ r.get? c = some v) :
    GrouperDerived groupby rows (Grouper.memorizeFirst g k c v) := by
  induction g with
  | nil =>
    intro K m hKm c' v' hcv
    simp only [Grouper.memorizeFirst, List.mem_singleton] at hKm
    injection hKm with h1 h2
    subst h1
    subst h2
    rcases List.mem_singleton.1 hcv with heq
    injection heq with h3 h4
    subst h3
    subst h4
    exact hder
  | cons hd tl ih =>
    obtain ⟨k0, m0⟩ := hd
    intro K m hKm c' v' hcv
    by_cases hk : k0 = k
    · simp only [Grouper.memorizeFirst, if_pos hk] at hKm
      rcases List.mem_cons.1 hKm with heq | hmem
      · injection heq with h1 h2
        subst h1
        subst h2
        rcases gvOrInsert_mem m0 c v (c', v') hcv with heq2 | hmem2
        · injection heq2 with h3 h4
          subst h3
          subst h4
          rw [hk]
          exact hder
        · exact h K m0 (List.mem_cons_self _ _) c' v' hmem2
      · exact h K m (List.mem_cons_of_mem _ hmem) c' v' hcv
    · simp only [Grouper.memorizeFirst, if_neg hk] at hKm
      rcases List.mem_cons.1 hKm with heq | hmem
      · injection heq with h1 h2
        subst h1
        subst h2
        exact h K m (List.mem_cons_self _ _) c' v' hcv
      · exact ih (fun K' m' hm' c2 v2 hc2 =>
          h K' m' (List.mem_cons_of_mem _ hm') c2 v2 hc2) K m hmem c' v' hcv

theorem GrouperDerived_memorizeAll {groupby : Option (List Nat)}
    {rows : List VecRecord} (select : List Nat) (r k : VecRecord)
    (hkey : groupbykey r groupby = some k) (hr : r ∈ rows) :
    ∀ {g g' : Grouper}, memorizeAll select r k g = some g' →
      GrouperDerived groupby rows g → GrouperDerived groupby rows g' := by
  induction select with
  | nil =>
    intro g g' hg' h
    injection hg' with heq
    subst heq
    exact h
  | cons i rest ih =>
    intro g g' hg' h
    cases hgi : r.get? i with
    | none =>
      rw [show memorizeAll (i :: rest) r k g =
          (match r.get? i with
           | none => none
           | some f => memorizeAll rest r k
               (if f ≠ [] then Grouper.memorize g k i f else g)) from rfl,
        hgi] at hg'
      exact Option.noConfusion hg'
    | some f =>
      rw [show memorizeAll (i :: rest) r k g =
          (match r.get? i with
           | none => none
           | some f => memorizeAll rest r k
               (if f ≠ [] then Grouper.memorize g k i f else g)) from rfl,
        hgi] at hg'
      refine ih hg' ?_
      by_cases hf : f = []
      · simpa [hf] using h
      · rw [if_pos hf]
        exact GrouperDerived_memorize h k i f ⟨r, hr, hkey, hgi⟩

theorem GrouperDerived_memorizeAllFirst {groupby : Option (List Nat)}
    {rows : List VecRecord} (select : List Nat) (r k : VecRecord)
    (hkey : groupbykey r groupby = some k) (hr : r ∈ rows) :
    ∀ {g g' : Grouper}, memorizeAllFirst select r k g = some g' →
      GrouperDerived groupby rows g → GrouperDerived groupby rows g' := by
  induction select with
  | nil =>
    intro g g' hg' h
    injection hg' with heq
    subst heq
    exact h
  | cons i rest ih =>
    intro g g' hg' h
    cases hgi : r.get? i with
    | none =>
      rw [show memorizeAllFirst (i :: rest) r k g =
          (match r.get? i with
           | none => none
           | some f => memorizeAllFirst rest r k
               (if f ≠ [] then Grouper.memorizeFirst g k i f else g)) from rfl,
        hgi] at hg'
      exact Option.noConfusion hg'
    | some f =>
      rw [show memorizeAllFirst (i :: rest) r k g =
          (match r.get? i with
           | none => none
           | some f => memorizeAllFirst rest r k
               (if f ≠ [] then Grouper.memorizeFirst g k i f else g)) from rfl,
        hgi] at hg'
      refine ih hg' ?_
      by_cases hf : f = []
      · simpa [hf] using h
      · rw [if_pos hf]
        exact GrouperDerived_memorizeFirst h k i f ⟨r, hr, hkey, hgi⟩

theorem forwardStep_inv {groupby : Option (List Nat)} {select : List Nat}
    {g : Grouper} {r : VecRecord} {g' : Grouper} {row : VecRecord}
    (h : forwardStep groupby select g r = some (g', row)) :
    ∃ key, groupbykey r groupby = some key ∧
      memorizeAll select r key g = some g' ∧
      row = fillRecord r select g' key := by
  unfold forwardStep at h
  cases hkey : groupbykey r groupby with
  | none =>
    rw [hkey] at h
    exact Option.noConfusion h
  | some key =>
    rw [hkey] at h
    have h2 : (match memorizeAll select r key g with
      | none => none
      | some g2 => some (g2, fillRecord r select g2 key)) = some (g', row) := h
    cases hmem : memorizeAll select r key g with
    | none =>
      rw [hmem] at h2
      exact Option.noConfusion h2
    | some g2 =>
      rw [hmem] at h2
      injection h2 with h3
      have hg2 : g2 = g' := congrArg Prod.fst h3
      have hrow : row = fillRecord r select g2 key := (congrArg Prod.snd h3).symm
      subst hg2
      exact ⟨key, rfl, hmem, hrow⟩

theorem firstStep_inv {groupby : Option (List Nat)} {select : List Nat}
    {g : Grouper} {buf : Buffer} {r : VecRecord} {g' : Grouper} {buf' : Buffer}
    {em : List VecRecord}
    (h : firstStep groupby select g buf r = some (g', buf', em)) :
    ∃ key, groupbykey r groupby = some key ∧
      memorizeAllFirst select r key g = some g' := by
  unfold firstStep at h
  cases hkey : groupbykey r groupby with
  | none =>
    rw [hkey] at h
    exact Option.noConfusion h
  | some key =>
    rw [hkey] at h
    have h2 : (match memorizeAllFirst select r key g with
      | none => none
      | some g2 =>
        match anyEmptyAt select (fillRecord r select g2 key) with
        | none => none
        | some true => some (g2, bufferPush buf key (fillRecord r select g2 key), [])
        | some false =>
          some (g2, (bufferRemove buf key).2,
            (bufferRemove buf key).1.map (fun b => fillRecord b select g2 key) ++
              [fillRecord r select g2 key])) = some (g', buf', em) := h
    cases hmem : memorizeAllFirst select r key g with
    | none =>
      rw [hmem] at h2
      exact Option.noConfusion h2
    | some g2 =>
      rw [hmem] at h2
      have h3 : (match anyEmptyAt select (fillRecord r select g2 key) with
        | none => none
        | some true => some (g2, bufferPush buf key (fillRecord r select g2 key), [])
        | some false =>
          some (g2, (bufferRemove buf key).2,
            (bufferRemove buf key).1.map (fun b => fillRecord b select g2 key) ++
              [fillRecord r select g2 key])) = some (g', buf', em) := h2
      cases hany : anyEmptyAt select (fillRecord r select g2 key) with
      | none =>
        rw [hany] at h3
        exact Option.noConfusion h3
      | some b =>
        rw [hany] at h3
        cases b
        · injection h3 with h4
          have hg2 : g2 = g' := congrArg Prod.fst h4
          subst hg2
          exact ⟨key, rfl, hmem⟩
        · injection h3 with h4
          have hg2 : g2 = g' := congrArg Prod.fst h4
          subst hg2
          exact ⟨key, rfl, hmem⟩

theorem forwardRunFrom_derived (groupby : Option (List Nat)) (select : List Nat) :
    ∀ (rs : List VecRecord) (g : Grouper) (rows : List VecRecord),
      (∀ x ∈ rs, x ∈ rows) → GrouperDerived groupby rows g →
      GrouperDerived groupby rows (forwardRunFrom groupby select g rs).2.1 := by
  intro rs
  induction rs with
  | nil => intro g rows _ h; exact h
  | cons r rest ih =>
    intro g rows hsub h
    cases hstep : forwardStep groupby select g r with
    | none =>
      simp only [forwardRunFrom, hstep]
      exact h
    | some p =>
      obtain ⟨g', row⟩ := p
      simp only [forwardRunFrom, hstep]
      obtain ⟨key, hkey, hmem, -⟩ := forwardStep_inv hstep
      exact ih g' rows (fun x hx => hsub x (List.mem_cons_of_mem _ hx))
        (GrouperDerived_memorizeAll select r key hkey
          (hsub r (List.mem_cons_self _ _)) hmem h)

theorem firstRunLoop_derived (groupby : Option (List Nat)) (select : List Nat) :
    ∀ (rs : List VecRecord) (g : Grouper) (buf : Buffer) (rows : List VecRecord),
      (∀ x ∈ rs, x ∈ rows) → GrouperDerived groupby rows g →
      GrouperDerived groupby rows (firstRunLoop groupby select g buf rs).2.1 := by
  intro rs
  induction rs with
  | nil => intro g buf rows _ h; exact h
  | cons r rest ih =>
    intro g buf rows hsub h
    cases hstep : firstStep groupby select g buf r with
    | none =>
      simp only [firstRunLoop, hstep]
      exact h
    | some p =>
      obtain ⟨g', buf', em⟩ := p
      simp only [firstRunLoop, hstep]
      obtain ⟨key, hkey, hmem⟩ := firstStep_inv hstep
      exact ih g' buf' rows (fun x hx => hsub x (List.mem_cons_of_mem _ hx))
        (GrouperDerived_memorizeAllFirst select r key hkey
          (hsub r (List.mem_cons_self _ _)) hmem h)

/-- C7: Group scoping invariant, preserved by every per-record step under
both policies: after processing any input prefix, every entry of the value
memory of a group derives from a record whose group key equals that
group's key; with no group-by selection every record maps to the fixed
empty-tuple key. -/
theorem c7_group_scoping (groupby : Option (List Nat)) (select : List Nat)
    (records : List VecRecord) :
    (∀ k, GrouperDerived groupby (records.take k)
      (forwardRun groupby select (records.take k)).2.1) ∧
    (∀ k, GrouperDerived groupby (records.take k)
      (firstRunLoop groupby select [] [] (records.take k)).2.1) ∧
    (groupby = none → ∀ r : VecRecord, groupbykey r groupby = some []) := by
  refine ⟨?_, ?_, ?_⟩
  · intro k
    exact forwardRunFrom_derived groupby select (records.take k) [] (records.take k)
      (fun x hx => hx) (fun K m hKm => absurd hKm (List.not_mem_nil _))
  · intro k
    exact firstRunLoop_derived groupby select (records.take k) [] [] (records.take k)
      (fun x hx => hx) (fun K m hKm => absurd hKm (List.not_mem_nil _))
  · intro hnone r
    rw [hnone]
    rfl

/-- Witness for C7 at a concrete input: a grouped run where the single
memory entry comes from the record of its own group. -/
theorem c7_group_scoping_witness :
    (∃ r ∈ (([[[97], [98]]] : List VecRecord).take 1),
      groupbykey r (some [1]) = some [[98]] ∧ r.get? 0 = some [97]) ∧
    (∀ k, GrouperDerived (some [1]) (([[[97], [98]]] : List VecRecord).take k)
      (forwardRun (some [1]) [0] (([[[97], [98]]] : List VecRecord).take k)).2.1) := by
  constructor
  · exact ⟨[[97], [98]], by decide, by decide, by decide⟩
  · exact (c7_group_scoping (some [1]) [0] [[[97], [98]]]).1

/-! ### Fatal malformed-input errors -/

theorem forwardStep_bad (groupby : Option (List Nat)) (select : List Nat)
    (g : Grouper) (bad : VecRecord)
    (hbad : (∃ i ∈ select, bad.length ≤ i) ∨
      (∃ sel, groupby = some sel ∧ ∃ i ∈ sel, bad.length ≤ i)) :
    forwardStep groupby select g bad = none := by
  rcases hbad with hsel | ⟨sel, hgb, hidx⟩
  · unfold forwardStep
    cases hkey : groupbykey bad groupby with
    | none => rfl
    | some key =>
      show (match memorizeAll select bad key g with
        | none => none
        | some g2 => some (g2, fillRecord bad select g2 key)) = none
      rw [memorizeAll_none select bad key g hsel]
  · unfold forwardStep
    rw [show groupbykey bad groupby = none by
      rw [hgb]
      exact projectKey_none bad sel hidx]

theorem firstStep_bad (groupby : Option (List Nat)) (select : List Nat)
    (g : Grouper) (buf : Buffer) (bad : VecRecord)
    (hbad : (∃ i ∈ select, bad.length ≤ i) ∨
      (∃ sel, groupby = some sel ∧ ∃ i ∈ sel, bad.length ≤ i)) :
    firstStep groupby select g buf bad = none := by
  rcases hbad with hsel | ⟨sel, hgb, hidx⟩
  · unfold firstStep
    cases hkey : groupbykey bad groupby with
    | none => rfl
    | some key =>
      show (match memorizeAllFirst select bad key g with
        | none => none
        | some g2 =>
          match anyEmptyAt select (fillRecord bad select g2 key) with
          | none => none
          | some true => some (g2, bufferPush buf key (fillRecord bad select g2 key), [])
          | some false =>
            some (g2, (bufferRemove buf key).2,
              (bufferRemove buf key).1.map (fun b => fillRecord b select g2 key) ++
                [fillRecord bad select g2 key])) = none
      rw [memorizeAllFirst_none select bad key g hsel]
  · unfold firstStep
    rw [show groupbykey bad groupby = none by
      rw [hgb]
      exact projectKey_none bad sel hidx]

theorem firstRunLoop_append (groupby : Option (List Nat)) (select : List Nat)
    (xs ys : List VecRecord) :
    ∀ (g : Grouper) (buf : Buffer),
      (firstRunLoop groupby select g buf xs).2.2.2 = true →
      firstRunLoop groupby select g buf (xs ++ ys) =
        ((firstRunLoop groupby select g buf xs).1 ++
          (firstRunLoop groupby select (firstRunLoop groupby select g buf xs).2.1
            (firstRunLoop groupby select g buf xs).2.2.1 ys).1,
         (firstRunLoop groupby select (firstRunLoop groupby select g buf xs).2.1
            (firstRunLoop groupby select g buf xs).2.2.1 ys).2) := by
  induction xs with
  | nil => intro g buf _; simp [firstRunLoop]
  | cons r xs ih =>
    intro g buf hok
    cases hstep : firstStep groupby select g buf r with
    | none =>
      simp only [firstRunLoop, hstep] at hok
      exact Bool.noConfusion hok
    | some p =>
      obtain ⟨g', buf', em⟩ := p
      simp only [List.cons_append, List.append_eq, firstRunLoop, hstep] at hok ⊢
      rw [ih g' buf' hok, List.append_assoc]

/-- C8: a record too short for a configured target or group-by column
index is a fatal, immediately-propagated error: the run reports failure,
only rows emitted before the failing record are output (for the first
policy not even the pending buffers are flushed), and no record after the
failing one is processed or emitted. -/
theorem c8_fatal_truncation (first : Bool) (groupby : Option (List Nat))
    (select : List Nat) (pre post : List VecRecord) (bad : VecRecord)
    (hsort : List.Pairwise (· < ·) select)
    (hvalpre : ∀ r ∈ pre, ∀ i ∈ select, i < r.length)
    (hgrppre : ∀ r ∈ pre, (groupbykey r groupby).isSome = true)
    (hbad : (∃ i ∈ select, bad.length ≤ i) ∨
      (∃ sel, groupby = some sel ∧ ∃ i ∈ sel, bad.length ≤ i)) :
    (runFill first groupby select (pre ++ bad :: post)).2 = false ∧
    (runFill first groupby select (pre ++ bad :: post)).1 =
      (if first then (firstRunLoop groupby select [] [] pre).1
       else (forwardRun groupby select pre).1) := by
  cases first with
  | false =>
    obtain ⟨hok1, -⟩ := forwardRunFrom_spec groupby select pre hsort hvalpre hgrppre
      pre [] [] rfl (fun K c _ => rfl)
    have happ := forwardRunFrom_append groupby select pre (bad :: post) [] hok1
    have hmid : ∀ g : Grouper, forwardRunFrom groupby select g (bad :: post) =
        ([], g, false) := by
      intro g
      simp only [forwardRunFrom, forwardStep_bad groupby select g bad hbad]
    constructor
    · show (forwardRunFrom groupby select [] (pre ++ bad :: post)).2.2 = false
      rw [happ, hmid]
    · show (forwardRunFrom groupby select [] (pre ++ bad :: post)).1 =
        (forwardRun groupby select pre).1
      rw [happ, hmid]
      simp [forwardRun]
  | true =>
    obtain ⟨hok1, -, -⟩ := firstRunLoop_perm groupby select pre hsort hvalpre
      hgrppre pre [] [] [] [] rfl (memInvFirst_nil groupby select) grouperNE_nil
      List.Forall₂.nil
    have happ := firstRunLoop_append groupby select pre (bad :: post) [] [] hok1
    have hmid : ∀ (g : Grouper) (buf : Buffer),
        firstRunLoop groupby select g buf (bad :: post) = ([], g, buf, false) := by
      intro g buf
      simp only [firstRunLoop, firstStep_bad groupby select g buf bad hbad]
    have hloopfull : (firstRunLoop groupby select [] [] (pre ++ bad :: post)).2.2.2 =
        false := by
      rw [happ, hmid]
    constructor
    · show (firstRun groupby select (pre ++ bad :: post)).2 = false
      simp only [firstRun, hloopfull]
      rfl
    · show (firstRun groupby select (pre ++ bad :: post)).1 =
        (firstRunLoop groupby select [] [] pre).1
      simp only [firstRun, hloopfull]
      rw [show ((if false = true
          then ((firstRunLoop groupby select [] [] (pre ++ bad :: post)).1 ++
            flushBuffer select
              (firstRunLoop groupby select [] [] (pre ++ bad :: post)).2.1
              (firstRunLoop groupby select [] [] (pre ++ bad :: post)).2.2.1, true)
          else ((firstRunLoop groupby select [] [] (pre ++ bad :: post)).1,
            false)) : List VecRecord × Bool) =
        ((firstRunLoop groupby select [] [] (pre ++ bad :: post)).1, false)
        from rfl]
      show (firstRunLoop groupby select [] [] (pre ++ bad :: post)).1 =
        (firstRunLoop groupby select [] [] pre).1
      rw [happ, hmid]
      simp

/-- Witness for C8: first policy, target column `1` out of range for the
one-column failing record; the valid leading row was buffered and is lost
with the abort, so nothing at all is emitted. -/
theorem c8_fatal_truncation_witness :
    (runFill true none [1] ([[[97], [98]]] ++ [[99]] :: [[[100], [101]]])).2 = false ∧
    (runFill true none [1] ([[[97], [98]]] ++ [[99]] :: [[[100], [101]]])).1 =
      (if true then (firstRunLoop none [1] [] [] [[[97], [98]]]).1
       else (forwardRun none [1] [[[97], [98]]]).1) :=
  c8_fatal_truncation true none [1] [[[97], [98]]] [[[100], [101]]] [[99]]
    (by decide) (by decide) (by decide) (by decide)

/-! ### Coalesce -/

/-- C9: Coalesce: for every input record with the selected indices in
range, the output record is the input record with exactly one field
appended — the first non-empty field among the selected columns in
selection order, or the empty field when every selected field is empty —
so no existing field is modified and the row count is preserved (one
output row per input row). -/
theorem c9_coalesce (select : List Nat) (record : VecRecord)
    (hval : ∀ i ∈ select, i < record.length) :
    coalesce select record =
      some (record ++
        [((select.map (fieldAt record)).find? (fun f => !(f == []))).getD []]) ∧
    ∀ out, coalesce select record = some out →
      out.length = record.length + 1 ∧ out.take record.length = record := by
  have key : ∀ sel : List Nat, (∀ i ∈ sel, i < record.length) →
      coalesceField record sel =
        some (((sel.map (fieldAt record)).find? (fun f => !(f == []))).getD []) := by
    intro sel
    induction sel with
    | nil => intro _; rfl
    | cons i rest ih =>
      intro hv
      have hi := hv i (List.mem_cons_self i rest)
      have hstep : coalesceField record (i :: rest) =
          (if fieldAt record i ≠ [] then some (fieldAt record i)
           else coalesceField record rest) := by
        simp only [coalesceField]
        rw [get?_eq_fieldAt record i hi]
      rw [hstep]
      by_cases hf : fieldAt record i = []
      · rw [if_neg (fun h => h hf),
          ih (fun j hj => hv j (List.mem_cons_of_mem _ hj))]
        simp only [List.map_cons]
        rw [List.find?_cons_of_neg _ (by simp [hf])]
      · rw [if_pos hf]
        simp only [List.map_cons]
        rw [List.find?_cons_of_pos _ (by simp [hf])]
        rfl
  constructor
  · show coalesce select record = _
    unfold coalesce
    rw [key select hval]
  · intro out hout
    unfold coalesce at hout
    cases hcf : coalesceField record select with
    | none =>
      rw [hcf] at hout
      exact Option.noConfusion hout
    | some f =>
      rw [hcf] at hout
      injection hout with h1
      subst h1
      constructor
      · simp
      · exact List.take_left record [f]

/-- Witness for C9 at a concrete input: columns `0,2` of `["", b, c]`
coalesce to `c`, appended after the record. -/
theorem c9_coalesce_witness :
    coalesce [0, 2] [[], [98], [99]] =
      some ([[], [98], [99]] ++
        [((([0, 2] : List Nat).map (fieldAt [[], [98], [99]])).find?
          (fun f => !(f == []))).getD []]) ∧
    ∀ out, coalesce [0, 2] [[], [98], [99]] = some out →
      out.length = ([[], [98], [99]] : VecRecord).length + 1 ∧
      out.take ([[], [98], [99]] : VecRecord).length = [[], [98], [99]] :=
  c9_coalesce [0, 2] [[], [98], [99]] (by decide)

/-- C10: backfill is not an independent toggle: it is enabled exactly when
the first policy is selected.  `--first` dispatches to the first-policy
filler, the only one with a pending buffer; otherwise the forward filler
runs, which keeps no buffer and has emitted exactly one row per record
after any prefix; and the first-policy filler unconditionally buffers
every record whose filled image still has an empty target field. -/
theorem c10_backfill_iff_first (groupby : Option (List Nat)) (select : List Nat)
    (records : List VecRecord)
    (hsort : List.Pairwise (· < ·) select)
    (hval : ∀ r ∈ records, ∀ i ∈ select, i < r.length)
    (hgrp : ∀ r ∈ records, (groupbykey r groupby).isSome = true) :
    runFill true groupby select records = firstRun groupby select records ∧
    runFill false groupby select records =
      ((forwardRun groupby select records).1,
       (forwardRun groupby select records).2.2) ∧
    (∀ k, k ≤ records.length →
      (forwardRun groupby select (records.take k)).1.length = k) ∧
    (∀ (g g' : Grouper) (buf : Buffer) (r key : VecRecord),
      (∀ i ∈ select, i < r.length) →
      groupbykey r groupby = some key →
      memorizeAllFirst select r key g = some g' →
      (∃ c ∈ select, fieldAt (fillRecord r select g' key) c = []) →
      firstStep groupby select g buf r =
        some (g', bufferPush buf key (fillRecord r select g' key), [])) := by
  refine ⟨rfl, rfl, ?_, ?_⟩
  · intro k hk
    have hvalk : ∀ r ∈ records.take k, ∀ i ∈ select, i < r.length :=
      fun r hr => hval r (List.take_subset k records hr)
    have hgrpk : ∀ r ∈ records.take k, (groupbykey r groupby).isSome = true :=
      fun r hr => hgrp r (List.take_subset k records hr)
    obtain ⟨hok1, -⟩ := forwardRunFrom_spec groupby select (records.take k) hsort
      hvalk hgrpk (records.take k) [] [] rfl (fun K c _ => rfl)
    show (forwardRunFrom groupby select [] (records.take k)).1.length = k
    rw [forwardRunFrom_length groupby select (records.take k) [] hok1,
      List.length_take]
    omega
  · intro g g' buf r key hvalr hkey hg' hres
    have hrowval : ∀ i ∈ select, i < (fillRecord r select g' key).length := by
      rw [fillRecord_length]
      exact hvalr
    have hany : anyEmptyAt select (fillRecord r select g' key) = some true := by
      rw [anyEmptyAt_eq select _ hrowval, decide_eq_true hres]
    simp only [firstStep, hkey, hg', hany]

/-- Witness for C10 at a concrete configuration. -/
theorem c10_backfill_iff_first_witness :
    runFill true none [0] [[[97]], [[]]] = firstRun none [0] [[[97]], [[]]] ∧
    runFill false none [0] [[[97]], [[]]] =
      ((forwardRun none [0] [[[97]], [[]]]).1,
       (forwardRun none [0] [[[97]], [[]]]).2.2) ∧
    (∀ k, k ≤ ([[[97]], [[]]] : List VecRecord).length →
      (forwardRun none [0] (([[[97]], [[]]] : List VecRecord).take k)).1.length = k) ∧
    (∀ (g g' : Grouper) (buf : Buffer) (r key : VecRecord),
      (∀ i ∈ [0], i < r.length) →
      groupbykey r none = some key →
      memorizeAllFirst [0] r key g = some g' →
      (∃ c ∈ [0], fieldAt (fillRecord r [0] g' key) c = []) →
      firstStep none [0] g buf r =
        some (g', bufferPush buf key (fillRecord r [0] g' key), [])) :=
  c10_backfill_iff_first none [0] [[[97]], [[]]] (by decide) (by decide) (by decide)

end XsvFill
